import Mathlib

/-!
Verification of the rcloneUnion placement and ledger engine.

The Python source keeps the ledger as a JSON object
`{"accounts": {account_id: {"used_space": int, "remaining_space": int,
"files": {path: {"size": int}}}}}`.  Python dictionaries preserve insertion
order and have unique keys, so every dictionary is embedded as an
association list `List (String × _)` whose well-formedness (no duplicate
keys) is carried as an explicit hypothesis where a proof needs it.
Python integers are unbounded, so sizes and space counters are `Int`.
File-system and process effects (the ledger file on disk, the backup
folders, command emission) are made explicit as values.
-/

/-- One storage account of the ledger.  In the source this is the dictionary
`{"used_space": ..., "remaining_space": ..., "files": {...}}`; a file record
is the dictionary `{"size": n}` and is embedded as its size. -/
structure Account where
  used_space : Int
  remaining_space : Int
  files : List (String × Int)
deriving DecidableEq

/-- The ledger: the JSON object `{"accounts": {...}}`. -/
structure DB where
  accounts : List (String × Account)
deriving DecidableEq

/-- Dictionary lookup: the value stored under key `k`, reading the first
matching entry (association lists embed Python dicts, whose keys are unique). -/
def alistLookup {α : Type} : List (String × α) → String → Option α
  | [], _ => none
  | (k', v) :: rest, k => if k' = k then some v else alistLookup rest k

/-- Dictionary update `d[k] = v`: replaces the value of an existing key in
place (keeping its position, as Python dicts do) and otherwise appends the
new binding at the end (Python dicts append new keys in insertion order). -/
def alistInsert {α : Type} : List (String × α) → String → α → List (String × α)
  | [], k, v => [(k, v)]
  | (k', v') :: rest, k, v =>
    if k' = k then (k, v) :: rest else (k', v') :: alistInsert rest k v

/-- Dictionary deletion `del d[k]`: removes the first entry with key `k`
(the only one, for a well-formed dict). -/
def alistErase {α : Type} : List (String × α) → String → List (String × α)
  | [], _ => []
  | (k', v') :: rest, k => if k' = k then rest else (k', v') :: alistErase rest k

/-- Keys of an embedded dictionary have no duplicates (Python dict invariant). -/
def keysNodup {α : Type} (l : List (String × α)) : Prop :=
  (l.map Prod.fst).Nodup

/-- Well-formed ledger: the accounts dict and every files dict have unique
keys, which is guaranteed for any value deserialized from a JSON object. -/
def wfDB (db : DB) : Prop :=
  keysNodup db.accounts ∧ ∀ pr ∈ db.accounts, keysNodup pr.2.files

instance (db : DB) : Decidable (wfDB db) := by
  unfold wfDB keysNodup
  infer_instance

/-- Python `s.startswith(pre)`: true when the character sequence of `pre`
is an initial segment of the character sequence of `s`. -/
def startswith (s pre : String) : Bool :=
  pre.data.isPrefixOf s.data

/-- The capacity constant of `DatabaseManager.initialize_database`: the
value of the Python expression `int(14.95 * 1024**3)` under IEEE-754 double
arithmetic. -/
def ACCOUNT_CAPACITY : Int := 16052440268

/-- On-disk state of the persisted ledger file `drive_data.json`: absent,
present but not parseable as JSON, or present with a parsed ledger. -/
inductive DbFile where
  | absent
  | unparseable
  | stored (db : DB)
deriving DecidableEq

/-- `DatabaseManager.load_database`: opens and parses the ledger file.  The
source catches only `FileNotFoundError` (returning the empty ledger); a
present but unparseable file raises `json.JSONDecodeError`, which no caller
catches, so the run aborts — embedded as `Except`. -/
def load_database : DbFile → Except Unit DB
  | DbFile.absent => Except.ok ⟨[]⟩
  | DbFile.unparseable => Except.error ()
  | DbFile.stored db => Except.ok db

/-- `DatabaseManager.save_database`: if the ledger file does not exist yet it
first writes an empty ledger, then `create_database_backup` copies the
now-existing file into a timestamped backup, then the new ledger is written.
Returns the new file state together with the backup copy that was made of
the prior file contents. -/
def save_database (f : DbFile) (db : DB) : DbFile × DbFile :=
  let f1 := match f with
    | DbFile.absent => DbFile.stored ⟨[]⟩
    | other => other
  (DbFile.stored db, f1)

/-- `DatabaseManager.initialize_database`: for every service-account file
name ending in `.json`, derive the account id by deleting every occurrence
of `.json` (Python `str.replace`), and insert a fresh account with
`used_space = 0` and `remaining_space = int(14.95 * 1024**3)` when the id is
not yet present.  Accounts already present are left untouched. -/
def initialize_database (db : DB) (sa_files : List String) : DB :=
  ((sa_files.filter (fun f => f.endsWith ".json")).map
    (fun f => f.replace ".json" "")).foldl
    (fun d account_id =>
      if (alistLookup d.accounts account_id).isSome then d
      else ⟨d.accounts ++ [(account_id, ⟨0, ACCOUNT_CAPACITY, []⟩)]⟩)
    db

/-- `DatabaseManager.update_account_usage`: when the account id is unknown
the source prints an error and returns the ledger unchanged; otherwise it
adds the size to `used_space`, subtracts it from `remaining_space`, and
stores `files[file_path] = {"size": file_size}`. -/
def update_account_usage (db : DB) (account_id : String) (file_size : Int)
    (file_path : String) : DB :=
  match alistLookup db.accounts account_id with
  | none => db
  | some acc =>
    ⟨alistInsert db.accounts account_id
      { used_space := acc.used_space + file_size
        remaining_space := acc.remaining_space - file_size
        files := alistInsert acc.files file_path file_size }⟩

/-- Stable insertion step of a descending sort by the second component:
elements with strictly larger `used_space` stay in front, so an earlier
element is never placed after an equal later one.  This reproduces the
result of the stable Python `list.sort(key=lambda x: x[1], reverse=True)`. -/
def insert_by_used_desc (x : String × Int) : List (String × Int) → List (String × Int)
  | [] => [x]
  | y :: ys => if y.2 > x.2 then y :: insert_by_used_desc x ys else x :: y :: ys

/-- Stable descending sort by `used_space`, as performed by
`suitable_accounts.sort(key=lambda x: x[1], reverse=True)`. -/
def sort_by_used_desc : List (String × Int) → List (String × Int)
  | [] => []
  | x :: xs => insert_by_used_desc x (sort_by_used_desc xs)

/-- The `suitable_accounts` list of `DatabaseManager.find_suitable_account`:
the pairs `(account_id, used_space)` of every account with
`remaining_space >= file_size`, in account iteration order. -/
def suitable_accounts (db : DB) (file_size : Int) : List (String × Int) :=
  (db.accounts.filter (fun pr => file_size ≤ pr.2.remaining_space)).map
    (fun pr => (pr.1, pr.2.used_space))

/-- `DatabaseManager.find_suitable_account`: return `None` when no account
qualifies, else sort descending by `used_space` (stable) and return the
first account id. -/
def find_suitable_account (db : DB) (file_size : Int) : Option String :=
  match sort_by_used_desc (suitable_accounts db file_size) with
  | [] => none
  | best :: _ => some best.1

/-- `DatabaseManager.file_already_processed`: true when the destination path
is a key of the `files` dict of any account. -/
def file_already_processed (db : DB) (file_path : String) : Bool :=
  db.accounts.any (fun pr => (alistLookup pr.2.files file_path).isSome)

/-- A file descriptor as produced by the external listers
(`FileManager.scan_local_directory`, `get_file_info`,
`DriveManager.scan_drive_directory`): the dict fields used by the planner. -/
structure FileInfo where
  relative_file_path : String
  size : Int
  destination_path : String
  destination_path_with_name : String
deriving DecidableEq

/-- The per-run grouping `account_files` of `TransferManager.process_transfer`:
an insertion-ordered dict from account id to the pair of the accumulated
`file_paths` and `destination_paths` lists. -/
abbrev AccountFiles : Type := List (String × (List String × List String))

/-- Adding one accepted file to `account_files`: create the entry on first
use of the account (appended at the end, in dict insertion order), else
append to both lists of the existing entry. -/
def accountFilesAdd : AccountFiles → String → String → String → AccountFiles
  | [], aid, rel, dest => [(aid, ([rel], [dest]))]
  | (k, (fps, dps)) :: rest, aid, rel, dest =>
    if k = aid then (k, (fps ++ [rel], dps ++ [dest])) :: rest
    else (k, (fps, dps)) :: accountFilesAdd rest aid rel dest

/-- The per-file loop of `TransferManager.process_transfer`, in input order:
skip when `file_already_processed`; else ask `find_suitable_account`; the
source then tests `if account_id:` which is false both for `None` and for
the empty string, so an account whose id is the empty string is treated as
no account; on acceptance the grouping and the ledger are updated. -/
def process_transfer_files (db : DB) (files : List FileInfo)
    (account_files : AccountFiles) : DB × AccountFiles :=
  match files with
  | [] => (db, account_files)
  | fi :: rest =>
    if file_already_processed db fi.destination_path_with_name then
      process_transfer_files db rest account_files
    else
      match find_suitable_account db fi.size with
      | none => process_transfer_files db rest account_files
      | some account_id =>
        if account_id = "" then process_transfer_files db rest account_files
        else
          process_transfer_files
            (update_account_usage db account_id fi.size
              fi.destination_path_with_name)
            rest
            (accountFilesAdd account_files account_id fi.relative_file_path
              fi.destination_path)

/-- Path of the include-list artifact written by
`RcloneManager.create_rclone_include_file`:
`rclone_include_files/include_{account_id}.txt`. -/
def include_file_path (account_id : String) : String :=
  "rclone_include_files/include_" ++ account_id ++ ".txt"

/-- `RcloneManager.generate_rclone_command`: the command string built for a
batched copy or delete, with the remote named `g{account_id}`. -/
def generate_rclone_command (account_id include_file destination_path
    source_path : String) (is_delete : Bool) : String :=
  if is_delete then
    "rclone delete --include-from " ++ include_file ++
      " \"g" ++ account_id ++ ":" ++ destination_path ++ "\""
  else
    "rclone copy --ignore-existing --no-check-dest --size-only --progress " ++
      "-drive-copy-shortcut-content --include-from " ++ include_file ++
      " \"" ++ source_path ++ "\" \"g" ++ account_id ++ ":" ++
      destination_path ++ "\""

/-- The command-emission half of `TransferManager.process_transfer`: one copy
command per entry of `account_files`, whose destination is
`data["destination_paths"][0]` — the destination root of the first file
accepted for that account (entries are created nonempty, so the Python `[0]`
never faults; the embedding supplies `""` for the impossible empty case).
The source argument is rewritten for Drive-id sources. -/
def transfer_commands (account_files : AccountFiles) (source : String) :
    List String :=
  account_files.map (fun pr =>
    generate_rclone_command pr.1 (include_file_path pr.1)
      (pr.2.2.headD "")
      (if startswith source "id=" then "god,root_folder_" ++ source ++ ":"
        else source)
      false)

/-- `TransferManager.process_transfer`, given the externally scanned
`files_to_transfer` (source enumeration is filesystem and Drive I/O, out of
the core): runs the planning loop and then emits one batched copy command
per account that received files. -/
def process_transfer (db : DB) (files_to_transfer : List FileInfo)
    (source : String) : DB × List String :=
  let res := process_transfer_files db files_to_transfer []
  (res.1, transfer_commands res.2 source)

/-- The removal selection built by `TransferManager.find_account_and_path`:
an insertion-ordered dict from account id to the dict of matching
destination paths with their sizes. -/
abbrev RemovalMap : Type := List (String × List (String × Int))

/-- The inner loop of `find_account_and_path` for one account: every file
whose destination path starts with the requested path is collected, in the
iteration order of the files dict (this is the filter of the files list by
the Python test `file_path.startswith(path)`). -/
def collectMatches (files : List (String × Int)) (path : String) :
    List (String × Int) :=
  files.filter (fun pr => startswith pr.1 path)

/-- Recursion over the accounts list for `find_account_and_path`.  In the
source the removal map is a dict keyed by account id; since account ids are
unique and the inner loop of one account only ever extends the entry of
that account, the map lists — in account iteration order — exactly the accounts
with at least one matching file, each with its matches in file order. -/
def find_account_and_path_accounts : List (String × Account) → String → RemovalMap
  | [], _ => []
  | (aid, acc) :: rest, path =>
    let m := collectMatches acc.files path
    if m.isEmpty then find_account_and_path_accounts rest path
    else (aid, m) :: find_account_and_path_accounts rest path

/-- `TransferManager.find_account_and_path`: scan the files of every account and
build the per-account removal selection of paths matching the prefix. -/
def find_account_and_path (db : DB) (path : String) : RemovalMap :=
  find_account_and_path_accounts db.accounts path

/-- One step of `TransferManager.remove_from_database`:
`db["accounts"][account_id]["used_space"] -= file_size`,
`remaining_space += file_size`, `del ...["files"][file_path]`.  A missing
account or a missing file key raises `KeyError` in Python, ending the run —
embedded as `none`. -/
def removeOne (db : DB) (account_id file_path : String) (file_size : Int) :
    Option DB :=
  match alistLookup db.accounts account_id with
  | none => none
  | some acc =>
    if (alistLookup acc.files file_path).isSome then
      some ⟨alistInsert db.accounts account_id
        { used_space := acc.used_space - file_size
          remaining_space := acc.remaining_space + file_size
          files := alistErase acc.files file_path }⟩
    else none

/-- The inner loop of `remove_from_database` over the selection of one account. -/
def removeFiles (db : DB) (account_id : String) : List (String × Int) → Option DB
  | [] => some db
  | (file_path, file_size) :: rest =>
    match removeOne db account_id file_path file_size with
    | none => none
    | some db2 => removeFiles db2 account_id rest

/-- `TransferManager.remove_from_database`: for every selected entry,
subtract the size from `used_space`, add it back to `remaining_space`, and
delete the entry from the files dict of the account. -/
def remove_from_database (db : DB) : RemovalMap → Option DB
  | [] => some db
  | (account_id, data) :: rest =>
    match removeFiles db account_id data with
    | none => none
    | some db2 => remove_from_database db2 rest

/-- `TransferManager.process_removal`: build the removal map, apply
`remove_from_database` (on a deep copy — the embedding is already
functional), and, when the map is empty, print the nothing-to-remove error
(returned as the Boolean) and emit no commands; otherwise emit one batched
delete command per account of the removal map. -/
def process_removal (db : DB) (source : String) :
    Option (DB × List String × Bool) :=
  let removal_map := find_account_and_path db source
  match remove_from_database db removal_map with
  | none => none
  | some db2 =>
    if removal_map.isEmpty then some (db2, [], true)
    else
      some (db2,
        removal_map.map (fun pr =>
          generate_rclone_command pr.1 (include_file_path pr.1) source "."
            true),
        false)

/-- Outcome of one removal invocation of `main` (`python main.py -r SOURCE`):
the ledger finally held in memory, the emitted commands, the new state of
the ledger file after `save_database`, the timestamped backup copy taken of
the prior ledger file by `create_database_backup`, the run snapshot written
by `BackupManager.create_backup` — `(db_before, db_after)` — which `main`
only writes when at least one command was generated, and whether the
nothing-to-remove error was printed. -/
structure RemovalRunResult where
  final_db : DB
  rclone_commands : List String
  saved_file : DbFile
  db_backup : DbFile
  run_snapshot : Option (DB × DB)
  nothing_to_remove_reported : Bool
deriving DecidableEq

/-- The `-r` branch of `main`: load the ledger (aborting on an unreadable
file), initialize accounts, plan the removal, save the ledger (which backs
up the prior file), reload it as `db_after`, and create the run backup only
when commands were generated (otherwise `main` prints `NO CHANGES!!!`). -/
def mainRemoval (f : DbFile) (sa_files : List String) (source : String) :
    Except Unit RemovalRunResult :=
  match load_database f with
  | Except.error e => Except.error e
  | Except.ok db0 =>
    let db_before := initialize_database db0 sa_files
    match process_removal db_before source with
    | none => Except.error ()
    | some (db, cmds, reported) =>
      let saved := save_database f db
      Except.ok
        { final_db := db
          rclone_commands := cmds
          saved_file := saved.1
          db_backup := saved.2
          run_snapshot := if cmds.isEmpty then none else some (db_before, db)
          nothing_to_remove_reported := reported }

/-- Outcome of one transfer invocation of `main`
(`python main.py SOURCE DESTINATION`), with the same bookkeeping as
`RemovalRunResult`. -/
structure TransferRunResult where
  final_db : DB
  rclone_commands : List String
  saved_file : DbFile
  db_backup : DbFile
  run_snapshot : Option (DB × DB)
deriving DecidableEq

/-- The transfer branch of `main`: load (aborting on an unreadable file),
initialize, plan the transfer over the externally scanned files, save, and
create the run backup only when commands were generated. -/
def mainTransfer (f : DbFile) (sa_files : List String)
    (files_to_transfer : List FileInfo) (source : String) :
    Except Unit TransferRunResult :=
  match load_database f with
  | Except.error e => Except.error e
  | Except.ok db0 =>
    let db_before := initialize_database db0 sa_files
    let res := process_transfer db_before files_to_transfer source
    let saved := save_database f res.1
    Except.ok
      { final_db := res.1
        rclone_commands := res.2
        saved_file := saved.1
        db_backup := saved.2
        run_snapshot :=
          if res.2.isEmpty then none else some (db_before, res.1) }

/-! ### Association-list lemmas (dictionary semantics) -/

theorem lookup_alistInsert_self {α : Type} (l : List (String × α)) (k : String)
    (v : α) : alistLookup (alistInsert l k v) k = some v := by
  induction l with
  | nil => simp [alistInsert, alistLookup]
  | cons hd tl ih =>
    obtain ⟨k', v'⟩ := hd
    by_cases h : k' = k
    · simp [alistInsert, h, alistLookup]
    · simp [alistInsert, h, alistLookup, ih]

theorem lookup_alistInsert_ne {α : Type} (l : List (String × α)) (k k' : String)
    (v : α) (h : k' ≠ k) :
    alistLookup (alistInsert l k v) k' = alistLookup l k' := by
  induction l with
  | nil => simp [alistInsert, alistLookup, Ne.symm h]
  | cons hd tl ih =>
    obtain ⟨k₀, v₀⟩ := hd
    by_cases hk : k₀ = k
    · simp [alistInsert, hk, alistLookup, Ne.symm h]
    · simp [alistInsert, hk, alistLookup, ih]

theorem alistInsert_alistInsert {α : Type} (l : List (String × α)) (k : String)
    (v w : α) : alistInsert (alistInsert l k v) k w = alistInsert l k w := by
  induction l with
  | nil => simp [alistInsert]
  | cons hd tl ih =>
    obtain ⟨k₀, v₀⟩ := hd
    by_cases hk : k₀ = k
    · simp [alistInsert, hk]
    · simp [alistInsert, hk, ih]

theorem mem_of_lookup_eq_some {α : Type} {l : List (String × α)} {k : String}
    {v : α} (h : alistLookup l k = some v) : (k, v) ∈ l := by
  induction l with
  | nil => simp [alistLookup] at h
  | cons hd tl ih =>
    obtain ⟨k₀, v₀⟩ := hd
    by_cases hk : k₀ = k
    · subst hk
      simp [alistLookup] at h
      simp [h]
    · simp [alistLookup, hk] at h
      exact List.mem_cons_of_mem _ (ih h)

theorem lookup_eq_some_of_mem {α : Type} {l : List (String × α)} {k : String}
    {v : α} (hnd : keysNodup l) (h : (k, v) ∈ l) : alistLookup l k = some v := by
  induction l with
  | nil => simp at h
  | cons hd tl ih =>
    obtain ⟨k₀, v₀⟩ := hd
    unfold keysNodup at hnd
    simp at hnd
    rcases List.mem_cons.mp h with h | h
    · simp at h
      obtain ⟨rfl, rfl⟩ := h
      simp [alistLookup]
    · have hk : k₀ ≠ k := by
        intro he
        subst he
        exact hnd.1 v h
      simp [alistLookup, hk]
      exact ih hnd.2 h

theorem alistInsert_self_of_lookup {α : Type} {l : List (String × α)}
    {k : String} {v : α} (h : alistLookup l k = some v) :
    alistInsert l k v = l := by
  induction l with
  | nil => simp [alistLookup] at h
  | cons hd tl ih =>
    obtain ⟨k₀, v₀⟩ := hd
    by_cases hk : k₀ = k
    · subst hk
      simp [alistLookup] at h
      simp [alistInsert, h]
    · simp [alistLookup, hk] at h
      simp [alistInsert, hk, ih h]

theorem keys_alistInsert_of_isSome {α : Type} {l : List (String × α)}
    {k : String} (v : α) (h : (alistLookup l k).isSome) :
    (alistInsert l k v).map Prod.fst = l.map Prod.fst := by
  induction l with
  | nil => simp [alistLookup] at h
  | cons hd tl ih =>
    obtain ⟨k₀, v₀⟩ := hd
    by_cases hk : k₀ = k
    · simp [alistInsert, hk]
    · simp [alistLookup, hk] at h
      simp [alistInsert, hk, ih h]

theorem lookup_alistErase_ne {α : Type} (l : List (String × α)) (k k' : String)
    (h : k' ≠ k) : alistLookup (alistErase l k) k' = alistLookup l k' := by
  induction l with
  | nil => simp [alistErase]
  | cons hd tl ih =>
    obtain ⟨k₀, v₀⟩ := hd
    by_cases hk : k₀ = k
    · subst hk
      simp [alistErase, alistLookup, Ne.symm h]
    · simp [alistErase, hk, alistLookup, ih]

theorem alistErase_of_lookup_none {α : Type} {l : List (String × α)}
    {k : String} (h : alistLookup l k = none) : alistErase l k = l := by
  induction l with
  | nil => simp [alistErase]
  | cons hd tl ih =>
    obtain ⟨k₀, v₀⟩ := hd
    by_cases hk : k₀ = k
    · simp [alistLookup, hk] at h
    · simp [alistLookup, hk] at h
      simp [alistErase, hk, ih h]

theorem alistErase_alistInsert {α : Type} (l : List (String × α)) (k : String)
    (v : α) : alistErase (alistInsert l k v) k = alistErase l k := by
  induction l with
  | nil => simp [alistInsert, alistErase]
  | cons hd tl ih =>
    obtain ⟨k₀, v₀⟩ := hd
    by_cases hk : k₀ = k
    · simp [alistInsert, hk, alistErase]
    · simp [alistInsert, hk, alistErase, ih]

theorem mem_alistInsert {α : Type} {l : List (String × α)} {k : String} {v : α}
    {x : String × α} (h : x ∈ alistInsert l k v) : x = (k, v) ∨ x ∈ l := by
  induction l with
  | nil => simpa [alistInsert] using h
  | cons hd tl ih =>
    obtain ⟨k₀, v₀⟩ := hd
    by_cases hk : k₀ = k
    · simp [alistInsert, hk] at h
      rcases h with h | h
      · exact Or.inl (by simp [h])
      · exact Or.inr (List.mem_cons_of_mem _ h)
    · simp [alistInsert, hk] at h
      rcases h with h | h
      · exact Or.inr (by simp [h])
      · rcases ih h with h' | h'
        · exact Or.inl h'
        · exact Or.inr (List.mem_cons_of_mem _ h')

theorem alistInsert_eq_map_of_nodup {α : Type} {l : List (String × α)}
    {k : String} (hnd : keysNodup l) (hs : (alistLookup l k).isSome) (v : α) :
    alistInsert l k v = l.map (fun pr => if pr.1 = k then (k, v) else pr) := by
  induction l with
  | nil => simp [alistLookup] at hs
  | cons hd tl ih =>
    obtain ⟨k₀, v₀⟩ := hd
    unfold keysNodup at hnd
    simp at hnd
    by_cases hk : k₀ = k
    · subst hk
      have hmap : tl.map (fun pr => if pr.1 = k₀ then (k₀, v) else pr) = tl := by
        conv_rhs => rw [← List.map_id tl]
        apply List.map_congr_left
        intro pr hpr
        have hne : pr.1 ≠ k₀ := by
          intro he
          exact hnd.1 pr.2 (by rw [← he]; exact hpr)
        simp [hne]
      simp [alistInsert, hmap]
    · simp [alistLookup, hk] at hs
      simp [alistInsert, hk, ih hnd.2 hs]

/-! ### Lemmas about the stable descending sort and the allocator -/

theorem insert_by_used_desc_ne_nil (x : String × Int) (l : List (String × Int)) :
    insert_by_used_desc x l ≠ [] := by
  cases l with
  | nil => simp [insert_by_used_desc]
  | cons y ys =>
    unfold insert_by_used_desc
    by_cases h : y.2 > x.2 <;> simp [h]

theorem sort_by_used_desc_eq_nil_iff (l : List (String × Int)) :
    sort_by_used_desc l = [] ↔ l = [] := by
  cases l with
  | nil => simp [sort_by_used_desc]
  | cons x xs =>
    simp [sort_by_used_desc, insert_by_used_desc_ne_nil x (sort_by_used_desc xs)]

theorem sort_by_used_desc_head (l : List (String × Int)) (hne : l ≠ []) :
    ∃ h t, sort_by_used_desc l = h :: t ∧ h ∈ l ∧ ∀ y ∈ l, y.2 ≤ h.2 := by
  induction l with
  | nil => exact absurd rfl hne
  | cons x xs ih =>
    cases xs with
    | nil =>
      refine ⟨x, [], ?_, by simp, by simp⟩
      simp [sort_by_used_desc, insert_by_used_desc]
    | cons z zs =>
      obtain ⟨h, t, hs, hmem, hmax⟩ := ih (by simp)
      by_cases hgt : h.2 > x.2
      · refine ⟨h, insert_by_used_desc x t, ?_, List.mem_cons_of_mem _ hmem, ?_⟩
        · show insert_by_used_desc x (sort_by_used_desc (z :: zs)) =
            h :: insert_by_used_desc x t
          rw [hs, insert_by_used_desc]
          simp [hgt]
        · intro y hy
          rcases List.mem_cons.mp hy with rfl | hy
          · exact le_of_lt hgt
          · exact hmax y hy
      · refine ⟨x, h :: t, ?_, List.mem_cons_self x _, ?_⟩
        · show insert_by_used_desc x (sort_by_used_desc (z :: zs)) = x :: h :: t
          rw [hs, insert_by_used_desc]
          simp [hgt]
        · intro y hy
          rcases List.mem_cons.mp hy with rfl | hy
          · exact le_refl _
          · exact le_trans (hmax y hy) (by omega)

theorem suitable_accounts_eq_nil_iff (db : DB) (s : Int) :
    suitable_accounts db s = [] ↔
      ∀ pr ∈ db.accounts, pr.2.remaining_space < s := by
  unfold suitable_accounts
  simp [List.map_eq_nil_iff, List.filter_eq_nil_iff, not_le]

theorem find_suitable_account_eq_none_iff (db : DB) (s : Int) :
    find_suitable_account db s = none ↔
      ∀ pr ∈ db.accounts, pr.2.remaining_space < s := by
  unfold find_suitable_account
  rcases hs : sort_by_used_desc (suitable_accounts db s) with _ | ⟨b, t⟩
  · constructor
    · intro _
      exact (suitable_accounts_eq_nil_iff db s).mp
        ((sort_by_used_desc_eq_nil_iff _).mp hs)
    · intro _
      rfl
  · constructor
    · intro h
      cases h
    · intro hall
      exfalso
      have hnil : suitable_accounts db s = [] :=
        (suitable_accounts_eq_nil_iff db s).mpr hall
      rw [hnil] at hs
      simp [sort_by_used_desc] at hs

theorem find_suitable_account_eq_some (db : DB) (s : Int) (aid : String)
    (h : find_suitable_account db s = some aid) :
    ∃ acc, (aid, acc) ∈ db.accounts ∧ s ≤ acc.remaining_space ∧
      ∀ pr ∈ db.accounts, s ≤ pr.2.remaining_space →
        pr.2.used_space ≤ acc.used_space := by
  unfold find_suitable_account at h
  rcases hs : sort_by_used_desc (suitable_accounts db s) with _ | ⟨b, t⟩
  · rw [hs] at h
    cases h
  · rw [hs] at h
    have hb : b.1 = aid := by
      simpa using h
    have hne : suitable_accounts db s ≠ [] := by
      intro hnil
      rw [hnil] at hs
      simp [sort_by_used_desc] at hs
    obtain ⟨hh, tt, heq, hm, hmax⟩ := sort_by_used_desc_head _ hne
    rw [heq] at hs
    have hhb : hh = b := by
      injection hs
    subst hhb
    unfold suitable_accounts at hm hmax
    rcases List.mem_map.mp hm with ⟨pr, hprf, hpr⟩
    rcases List.mem_filter.mp hprf with ⟨hpra, hprs⟩
    refine ⟨pr.2, ?_, ?_, ?_⟩
    · have : pr.1 = aid := by
        rw [← hb, ← hpr]
      rw [← this]
      exact hpra
    · simpa using hprs
    · intro pr' hpr' hs'
      have hmem' : (pr'.1, pr'.2.used_space) ∈
          (db.accounts.filter (fun pr => s ≤ pr.2.remaining_space)).map
            (fun pr => (pr.1, pr.2.used_space)) := by
        exact List.mem_map.mpr ⟨pr', List.mem_filter.mpr ⟨hpr', by simpa⟩, rfl⟩
      have := hmax _ hmem'
      have hb2 : hh.2 = pr.2.used_space := by
        rw [← hpr]
      simpa [hb2] using this

/-- Scenario B of the spec: account A at used 80 of capacity 100, account B
at used 10 of capacity 100. -/
def scenarioB_db : DB :=
  ⟨[("A", ⟨80, 20, []⟩), ("B", ⟨10, 90, []⟩)]⟩

/-- C2: `find_suitable_account` returns `none` exactly when no account has
`remaining_space >= size`; otherwise it returns the id of an eligible
account whose `used_space` is maximal among all eligible accounts; and on
Scenario B (A used 80 of 100, B used 10 of 100, file size 15) it selects A. -/
theorem C2_find_suitable_account (db : DB) (s : Int) :
    (find_suitable_account db s = none ↔
      ∀ pr ∈ db.accounts, pr.2.remaining_space < s)
    ∧ (∀ aid, find_suitable_account db s = some aid →
        ∃ acc, (aid, acc) ∈ db.accounts ∧ s ≤ acc.remaining_space ∧
          ∀ pr ∈ db.accounts, s ≤ pr.2.remaining_space →
            pr.2.used_space ≤ acc.used_space)
    ∧ find_suitable_account scenarioB_db 15 = some "A" :=
  ⟨find_suitable_account_eq_none_iff db s,
    fun aid h => find_suitable_account_eq_some db s aid h,
    by decide⟩

/-- Witness for C2 at a concrete input: instantiating the theorem on
Scenario B with the allocator result discharged by evaluation. -/
theorem C2_find_suitable_account_witness :
    ∃ acc, ("A", acc) ∈ scenarioB_db.accounts ∧ (15 : Int) ≤ acc.remaining_space ∧
      ∀ pr ∈ scenarioB_db.accounts, (15 : Int) ≤ pr.2.remaining_space →
        pr.2.used_space ≤ acc.used_space :=
  (C2_find_suitable_account scenarioB_db 15).2.1 "A" (by decide)

/-! ### Capacity conservation -/

/-- The capacity an account implicitly tracks: `used_space + remaining_space`. -/
def capOf (acc : Account) : Int := acc.used_space + acc.remaining_space

/-- Every account satisfies `used_space + remaining_space = capacity`. -/
def capAll (db : DB) : Prop :=
  ∀ k acc, alistLookup db.accounts k = some acc → capOf acc = ACCOUNT_CAPACITY

theorem lookup_append_some {α : Type} {l : List (String × α)} {k : String}
    {v : α} (h : alistLookup l k = some v) (l2 : List (String × α)) :
    alistLookup (l ++ l2) k = some v := by
  induction l with
  | nil => cases h
  | cons hd tl ih =>
    obtain ⟨k₀, v₀⟩ := hd
    by_cases hk : k₀ = k
    · simp [alistLookup, hk] at h ⊢
      exact h
    · simp [alistLookup, hk] at h ⊢
      exact ih h

theorem lookup_append_cases {α : Type} {l l2 : List (String × α)} {k : String}
    {v : α} (h : alistLookup (l ++ l2) k = some v) :
    alistLookup l k = some v ∨ alistLookup l2 k = some v := by
  induction l with
  | nil => exact Or.inr h
  | cons hd tl ih =>
    obtain ⟨k₀, v₀⟩ := hd
    by_cases hk : k₀ = k
    · simp [alistLookup, hk] at h ⊢
      exact Or.inl h
    · simp [alistLookup, hk] at h ⊢
      exact ih h

theorem ensure_accounts_lookup (ids : List String) (db : DB) (k : String)
    (acc : Account) (h : alistLookup db.accounts k = some acc) :
    alistLookup ((ids.foldl (fun d account_id =>
      if (alistLookup d.accounts account_id).isSome then d
      else ⟨d.accounts ++ [(account_id, ⟨0, ACCOUNT_CAPACITY, []⟩)]⟩)
      db).accounts) k = some acc := by
  induction ids generalizing db with
  | nil => exact h
  | cons i rest ih =>
    simp only [List.foldl_cons]
    by_cases hi : (alistLookup db.accounts i).isSome
    · simp only [hi, if_true]
      exact ih db h
    · simp only [hi, if_false]
      exact ih _ (lookup_append_some h _)

theorem ensure_accounts_lookup_cases (ids : List String) (db : DB) (k : String)
    (acc : Account)
    (h : alistLookup ((ids.foldl (fun d account_id =>
      if (alistLookup d.accounts account_id).isSome then d
      else ⟨d.accounts ++ [(account_id, ⟨0, ACCOUNT_CAPACITY, []⟩)]⟩)
      db).accounts) k = some acc) :
    alistLookup db.accounts k = some acc ∨ acc = ⟨0, ACCOUNT_CAPACITY, []⟩ := by
  induction ids generalizing db with
  | nil => exact Or.inl h
  | cons i rest ih =>
    simp only [List.foldl_cons] at h
    by_cases hi : (alistLookup db.accounts i).isSome
    · simp only [hi, if_true] at h
      exact ih db h
    · simp only [hi, if_false] at h
      rcases ih _ h with h' | h'
      · rcases lookup_append_cases h' with h'' | h''
        · exact Or.inl h''
        · by_cases hik : i = k
          · subst hik
            simp [alistLookup] at h''
            exact Or.inr h''.symm
          · simp [alistLookup, hik] at h''
      · exact Or.inr h'

theorem initialize_database_preserves_lookup (db : DB) (sa : List String)
    (k : String) (acc : Account) (h : alistLookup db.accounts k = some acc) :
    alistLookup (initialize_database db sa).accounts k = some acc :=
  ensure_accounts_lookup _ db k acc h

theorem initialize_database_lookup_cases (db : DB) (sa : List String)
    (k : String) (acc : Account)
    (h : alistLookup (initialize_database db sa).accounts k = some acc) :
    alistLookup db.accounts k = some acc ∨ acc = ⟨0, ACCOUNT_CAPACITY, []⟩ :=
  ensure_accounts_lookup_cases _ db k acc h

theorem capOf_update_account_usage (db : DB) (aid : String) (s : Int)
    (p : String) (k : String) :
    (alistLookup (update_account_usage db aid s p).accounts k).map capOf =
      (alistLookup db.accounts k).map capOf := by
  unfold update_account_usage
  rcases h : alistLookup db.accounts aid with _ | acc
  · simp [h]
  · simp only [h]
    by_cases hk : k = aid
    · subst hk
      rw [lookup_alistInsert_self, h]
      simp [capOf]
    · rw [lookup_alistInsert_ne _ _ _ _ hk]

theorem capOf_removeOne {db db2 : DB} {aid p : String} {s : Int}
    (h : removeOne db aid p s = some db2) (k : String) :
    (alistLookup db2.accounts k).map capOf =
      (alistLookup db.accounts k).map capOf := by
  unfold removeOne at h
  rcases ha : alistLookup db.accounts aid with _ | acc
  · rw [ha] at h
    cases h
  · simp only [ha] at h
    by_cases hf : (alistLookup acc.files p).isSome
    · rw [if_pos hf] at h
      injection h with h
      subst h
      by_cases hk : k = aid
      · subst hk
        rw [lookup_alistInsert_self, ha]
        simp [capOf]
      · rw [lookup_alistInsert_ne _ _ _ _ hk]
    · rw [if_neg hf] at h
      cases h

theorem capOf_removeFiles {aid : String} {entries : List (String × Int)}
    {db db2 : DB} (h : removeFiles db aid entries = some db2) (k : String) :
    (alistLookup db2.accounts k).map capOf =
      (alistLookup db.accounts k).map capOf := by
  induction entries generalizing db with
  | nil =>
    unfold removeFiles at h
    injection h with h
    subst h
    rfl
  | cons e rest ih =>
    obtain ⟨p, s⟩ := e
    unfold removeFiles at h
    rcases h1 : removeOne db aid p s with _ | dbm
    · rw [h1] at h
      cases h
    · rw [h1] at h
      exact (ih h).trans (capOf_removeOne h1 k)

theorem capOf_remove_from_database {rmap : RemovalMap} {db db2 : DB}
    (h : remove_from_database db rmap = some db2) (k : String) :
    (alistLookup db2.accounts k).map capOf =
      (alistLookup db.accounts k).map capOf := by
  induction rmap generalizing db with
  | nil =>
    unfold remove_from_database at h
    injection h with h
    subst h
    rfl
  | cons e rest ih =>
    obtain ⟨aid, entries⟩ := e
    unfold remove_from_database at h
    rcases h1 : removeFiles db aid entries with _ | dbm
    · rw [h1] at h
      cases h
    · rw [h1] at h
      exact (ih h).trans (capOf_removeFiles h1 k)

theorem capOf_process_transfer_files (files : List FileInfo) (db : DB)
    (af : AccountFiles) (k : String) :
    (alistLookup (process_transfer_files db files af).1.accounts k).map capOf =
      (alistLookup db.accounts k).map capOf := by
  induction files generalizing db af with
  | nil => rfl
  | cons fi rest ih =>
    unfold process_transfer_files
    by_cases h1 : file_already_processed db fi.destination_path_with_name
    · simp only [h1, if_true]
      exact ih db af
    · simp only [h1, if_false]
      rcases h2 : find_suitable_account db fi.size with _ | aid
      · exact ih db af
      · by_cases h3 : aid = ""
        · simp only [h3, if_true]
          exact ih db af
        · simp only [h3, if_false]
          exact (ih _ _).trans (capOf_update_account_usage db aid fi.size _ k)

theorem capOf_process_removal {db db2 : DB} {src : String} {cmds : List String}
    {rep : Bool} (h : process_removal db src = some (db2, cmds, rep))
    (k : String) :
    (alistLookup db2.accounts k).map capOf =
      (alistLookup db.accounts k).map capOf := by
  simp only [process_removal] at h
  rcases h1 : remove_from_database db (find_account_and_path db src) with _ | dbm
  · rw [h1] at h
    cases h
  · simp only [h1] at h
    by_cases he : (find_account_and_path db src).isEmpty
    · rw [if_pos he] at h
      simp only [Option.some.injEq, Prod.mk.injEq] at h
      obtain ⟨h2, -⟩ := h
      subst h2
      exact capOf_remove_from_database h1 k
    · rw [if_neg he] at h
      simp only [Option.some.injEq, Prod.mk.injEq] at h
      obtain ⟨h2, -⟩ := h
      subst h2
      exact capOf_remove_from_database h1 k

/-- C1: account initialization creates accounts with used 0 and
remaining = capacity and preserves existing accounts unchanged; a placement
adds and subtracts the same size, a removal subtracts and adds the same
size, so `used_space + remaining_space` is unchanged per account by every
ledger mutation; hence a transfer or removal run over an initialized ledger
whose accounts all satisfy `used + remaining = capacity` preserves that
equation for every account. -/
theorem C1_capacity_conservation :
    (∀ (db : DB) (sa : List String) (k : String) (acc : Account),
      alistLookup db.accounts k = some acc →
        alistLookup (initialize_database db sa).accounts k = some acc)
    ∧ (∀ (db : DB) (sa : List String) (k : String) (acc : Account),
        alistLookup (initialize_database db sa).accounts k = some acc →
          alistLookup db.accounts k = some acc ∨
            acc = ⟨0, ACCOUNT_CAPACITY, []⟩)
    ∧ (∀ (db : DB) (aid : String) (s : Int) (p k : String),
        (alistLookup (update_account_usage db aid s p).accounts k).map capOf =
          (alistLookup db.accounts k).map capOf)
    ∧ (∀ (db db2 : DB) (rmap : RemovalMap) (k : String),
        remove_from_database db rmap = some db2 →
          (alistLookup db2.accounts k).map capOf =
            (alistLookup db.accounts k).map capOf)
    ∧ (∀ (db : DB) (files : List FileInfo) (src : String) (sa : List String),
        capAll db →
          capAll (process_transfer (initialize_database db sa) files src).1)
    ∧ (∀ (db db2 : DB) (src : String) (sa : List String) (cmds : List String)
        (rep : Bool), capAll db →
          process_removal (initialize_database db sa) src =
            some (db2, cmds, rep) → capAll db2) := by
  refine ⟨initialize_database_preserves_lookup,
    initialize_database_lookup_cases,
    capOf_update_account_usage,
    fun db db2 rmap k h => capOf_remove_from_database h k, ?_, ?_⟩
  · intro db files src sa hcap k acc hk
    have h1 := capOf_process_transfer_files files (initialize_database db sa) [] k
    have hk' : alistLookup
        (process_transfer_files (initialize_database db sa) files []).1.accounts
        k = some acc := hk
    rw [hk'] at h1
    rcases h2 : alistLookup (initialize_database db sa).accounts k with _ | acc0
    · rw [h2] at h1
      cases h1
    · rw [h2] at h1
      have hcc : capOf acc = capOf acc0 := by
        simpa using h1
      rcases initialize_database_lookup_cases db sa k acc0 h2 with h3 | h3
      · rw [hcc]
        exact hcap k acc0 h3
      · rw [hcc, h3]
        simp [capOf]
  · intro db db2 src sa cmds rep hcap h k acc hk
    have h1 := capOf_process_removal h k
    rw [hk] at h1
    rcases h2 : alistLookup (initialize_database db sa).accounts k with _ | acc0
    · rw [h2] at h1
      cases h1
    · rw [h2] at h1
      have hcc : capOf acc = capOf acc0 := by
        simpa using h1
      rcases initialize_database_lookup_cases db sa k acc0 h2 with h3 | h3
      · rw [hcc]
        exact hcap k acc0 h3
      · rw [hcc, h3]
        simp [capOf]

/-- Witness for C1 at a concrete input: removing one file of size 3 from an
account at used 10 and remaining 0 leaves the used+remaining sum intact. -/
theorem C1_capacity_conservation_witness :
    (alistLookup (DB.mk [("A", ⟨7, 3, []⟩)]).accounts "A").map capOf =
      (alistLookup (DB.mk [("A", ⟨10, 0, [("x", 3)]⟩)]).accounts "A").map capOf :=
  C1_capacity_conservation.2.2.2.1
    ⟨[("A", ⟨10, 0, [("x", 3)]⟩)]⟩ ⟨[("A", ⟨7, 3, []⟩)]⟩
    ([("A", [("x", 3)])] : RemovalMap) "A" (by decide)

/-! ### Placement followed by exact removal -/

theorem remove_from_database_singleton (db : DB) (aid p : String) (s : Int)
    (acc : Account) (ha : alistLookup db.accounts aid = some acc)
    (hf : alistLookup acc.files p = some s) :
    remove_from_database db ([(aid, [(p, s)])] : RemovalMap) =
      some ⟨alistInsert db.accounts aid
        ⟨acc.used_space - s, acc.remaining_space + s,
          alistErase acc.files p⟩⟩ := by
  have h1 : removeOne db aid p s = some ⟨alistInsert db.accounts aid
      ⟨acc.used_space - s, acc.remaining_space + s,
        alistErase acc.files p⟩⟩ := by
    simp [removeOne, ha, hf]
  simp only [remove_from_database, removeFiles, h1]

/-- C9: placing a file of size `s` at destination path `p` on an existing
account and then removing exactly that ledger entry restores the
`used_space` and `remaining_space` to their pre-placement values and deletes
the entry; when `p` was not previously recorded on that account the whole
ledger is restored exactly. -/
theorem C9_place_remove_round_trip (db : DB) (aid p : String) (s : Int)
    (acc : Account) (h : alistLookup db.accounts aid = some acc) :
    remove_from_database (update_account_usage db aid s p)
        ([(aid, [(p, s)])] : RemovalMap) =
      some ⟨alistInsert db.accounts aid
        ⟨acc.used_space, acc.remaining_space, alistErase acc.files p⟩⟩
    ∧ (alistLookup acc.files p = none →
        remove_from_database (update_account_usage db aid s p)
            ([(aid, [(p, s)])] : RemovalMap) = some db) := by
  have hupd : update_account_usage db aid s p =
      ⟨alistInsert db.accounts aid
        ⟨acc.used_space + s, acc.remaining_space - s,
          alistInsert acc.files p s⟩⟩ := by
    unfold update_account_usage
    rw [h]
  have hmain := remove_from_database_singleton
    (⟨alistInsert db.accounts aid
      ⟨acc.used_space + s, acc.remaining_space - s, alistInsert acc.files p s⟩⟩)
    aid p s
    ⟨acc.used_space + s, acc.remaining_space - s, alistInsert acc.files p s⟩
    (lookup_alistInsert_self _ _ _) (lookup_alistInsert_self _ _ _)
  dsimp only at hmain
  rw [alistInsert_alistInsert] at hmain
  have e1 : acc.used_space + s - s = acc.used_space := by
    ring
  have e2 : acc.remaining_space - s + s = acc.remaining_space := by
    ring
  rw [e1, e2, alistErase_alistInsert] at hmain
  rw [← hupd] at hmain
  refine ⟨hmain, ?_⟩
  intro hnone
  rw [hmain, alistErase_of_lookup_none hnone]
  have heta : (⟨acc.used_space, acc.remaining_space, acc.files⟩ : Account) =
      acc := rfl
  rw [heta, alistInsert_self_of_lookup h]

/-- Witness for C9 at a concrete input: place a file of size 5 at path
`a/x` on account A (used 10, remaining 90), then remove exactly that path. -/
theorem C9_place_remove_round_trip_witness :
    remove_from_database
        (update_account_usage ⟨[("A", ⟨10, 90, [("a/y", 2)]⟩)]⟩ "A" 5 "a/x")
        ([("A", [("a/x", 5)])] : RemovalMap) =
      some ⟨alistInsert [("A", ⟨10, 90, [("a/y", 2)]⟩)] "A"
        ⟨10, 90, alistErase [("a/y", 2)] "a/x"⟩⟩ :=
  (C9_place_remove_round_trip ⟨[("A", ⟨10, 90, [("a/y", 2)]⟩)]⟩ "A" "a/x" 5
    ⟨10, 90, [("a/y", 2)]⟩ (by decide)).1

/-! ### Loading the ledger and empty removal runs -/

/-- C8: an absent ledger file loads as the empty ledger, never an error; a
stored ledger loads as itself; a present but unparseable ledger file is an
error, and both the removal and the transfer entry points abort on it
before any mutation, save, or directive emission. -/
theorem C8_load_database :
    load_database DbFile.absent = Except.ok ⟨[]⟩
    ∧ (∀ db : DB, load_database (DbFile.stored db) = Except.ok db)
    ∧ load_database DbFile.unparseable = Except.error ()
    ∧ (∀ (sa : List String) (src : String),
        mainRemoval DbFile.unparseable sa src = Except.error ())
    ∧ (∀ (sa : List String) (files : List FileInfo) (src : String),
        mainTransfer DbFile.unparseable sa files src = Except.error ()) :=
  ⟨rfl, fun _ => rfl, rfl, fun _ _ => rfl, fun _ _ _ => rfl⟩

/-- C5 counterexample: a removal run whose prefix matches nothing reports
the error and leaves the ledger unchanged, but `main` does not produce the
run backup — `rclone_commands` is empty, so the `BackupManager.create_backup`
call at the end of `main` is skipped (the run snapshot is `none`); only the
ledger-file backup made inside `save_database` records the unchanged state. -/
theorem C5_counterexample :
    mainRemoval (DbFile.stored ⟨[("A", ⟨3, 7, [("a/x", 3)]⟩)]⟩) [] "zzz" =
      Except.ok
        { final_db := ⟨[("A", ⟨3, 7, [("a/x", 3)]⟩)]⟩
          rclone_commands := []
          saved_file := DbFile.stored ⟨[("A", ⟨3, 7, [("a/x", 3)]⟩)]⟩
          db_backup := DbFile.stored ⟨[("A", ⟨3, 7, [("a/x", 3)]⟩)]⟩
          run_snapshot := none
          nothing_to_remove_reported := true } := by
  rfl

/-- C5 as amended: on an empty prefix match the removal run reports the
nothing-to-remove error, returns the ledger unchanged, still saves the
ledger — whereby `save_database` backs up the prior, unchanged ledger file —
but emits no commands and therefore produces no run snapshot backup. -/
theorem C5_nothing_to_remove (f : DbFile) (sa : List String) (src : String)
    (db0 : DB) (hload : load_database f = Except.ok db0)
    (hempty : find_account_and_path (initialize_database db0 sa) src = []) :
    mainRemoval f sa src = Except.ok
      { final_db := initialize_database db0 sa
        rclone_commands := []
        saved_file := DbFile.stored (initialize_database db0 sa)
        db_backup := (save_database f (initialize_database db0 sa)).2
        run_snapshot := none
        nothing_to_remove_reported := true } := by
  have hrem : process_removal (initialize_database db0 sa) src =
      some (initialize_database db0 sa, [], true) := by
    simp [process_removal, hempty, remove_from_database]
  unfold mainRemoval
  rw [hload]
  simp only [hrem]
  rfl

/-- Witness for the amended C5 at a concrete input: first run against an
absent ledger file, removal prefix matching nothing. -/
theorem C5_nothing_to_remove_witness :
    mainRemoval DbFile.absent [] "q" = Except.ok
      { final_db := ⟨[]⟩
        rclone_commands := []
        saved_file := DbFile.stored ⟨[]⟩
        db_backup := DbFile.stored ⟨[]⟩
        run_snapshot := none
        nothing_to_remove_reported := true } :=
  C5_nothing_to_remove DbFile.absent [] "q" ⟨[]⟩ rfl (by decide)

/-! ### Characterization of a full removal run -/

/-- Total size of a list of `(path, size)` entries. -/
def sumSizes (entries : List (String × Int)) : Int :=
  (entries.map Prod.snd).sum

/-- Erasing a list of keys from a dict, one `del` at a time. -/
def eraseKeys {α : Type} (l : List (String × α)) (ks : List String) :
    List (String × α) :=
  ks.foldl alistErase l

theorem removeFiles_spec (entries : List (String × Int)) (db : DB)
    (aid : String) (acc : Account)
    (ha : alistLookup db.accounts aid = some acc)
    (hnd : (entries.map Prod.fst).Nodup)
    (hmem : ∀ e ∈ entries, alistLookup acc.files e.1 = some e.2) :
    removeFiles db aid entries = some ⟨alistInsert db.accounts aid
      ⟨acc.used_space - sumSizes entries,
        acc.remaining_space + sumSizes entries,
        eraseKeys acc.files (entries.map Prod.fst)⟩⟩ := by
  induction entries generalizing db acc with
  | nil =>
    have h0 : (⟨acc.used_space - sumSizes [], acc.remaining_space + sumSizes [],
        eraseKeys acc.files (List.map Prod.fst ([] : List (String × Int)))⟩ : Account) = acc := by
      obtain ⟨u, r, F⟩ := acc
      simp [sumSizes, eraseKeys]
    show some db = _
    rw [h0, alistInsert_self_of_lookup ha]
  | cons e rest ih =>
    obtain ⟨p, s⟩ := e
    have hfp : alistLookup acc.files p = some s :=
      hmem (p, s) (List.mem_cons_self _ _)
    have h1 : removeOne db aid p s = some ⟨alistInsert db.accounts aid
        ⟨acc.used_space - s, acc.remaining_space + s,
          alistErase acc.files p⟩⟩ := by
      simp [removeOne, ha, hfp]
    have hndh := List.nodup_cons.mp
      (show (p :: rest.map Prod.fst).Nodup from hnd)
    have hmem2 : ∀ q ∈ rest,
        alistLookup (alistErase acc.files p) q.1 = some q.2 := by
      intro q hq
      have hne : q.1 ≠ p := by
        intro he
        exact hndh.1 (he ▸ List.mem_map_of_mem Prod.fst hq)
      rw [lookup_alistErase_ne _ _ _ hne]
      exact hmem q (List.mem_cons_of_mem _ hq)
    have hrest := ih
      (⟨alistInsert db.accounts aid
        ⟨acc.used_space - s, acc.remaining_space + s, alistErase acc.files p⟩⟩)
      (⟨acc.used_space - s, acc.remaining_space + s, alistErase acc.files p⟩)
      (lookup_alistInsert_self _ _ _) hndh.2 hmem2
    simp only [removeFiles, h1]
    rw [hrest, alistInsert_alistInsert]
    dsimp only
    have hsum : sumSizes ((p, s) :: rest) = s + sumSizes rest := by
      simp [sumSizes]
    have e1 : acc.used_space - s - sumSizes rest =
        acc.used_space - sumSizes ((p, s) :: rest) := by
      rw [hsum]
      ring
    have e2 : acc.remaining_space + s + sumSizes rest =
        acc.remaining_space + sumSizes ((p, s) :: rest) := by
      rw [hsum]
      ring
    have e3 : eraseKeys (alistErase acc.files p) (rest.map Prod.fst) =
        eraseKeys acc.files (((p, s) :: rest).map Prod.fst) := rfl
    rw [e1, e2, e3]

theorem lookup_eq_none_iff {α : Type} (l : List (String × α)) (k : String) :
    alistLookup l k = none ↔ k ∉ l.map Prod.fst := by
  induction l with
  | nil => simp [alistLookup]
  | cons hd tl ih =>
    obtain ⟨k₀, v₀⟩ := hd
    by_cases hk : k₀ = k
    · subst hk
      simp [alistLookup]
    · simp [alistLookup, hk, ih, Ne.symm hk]

theorem find_account_and_path_accounts_keys (accounts : List (String × Account))
    (p : String) :
    ((find_account_and_path_accounts accounts p).map Prod.fst).Sublist
      (accounts.map Prod.fst) := by
  induction accounts with
  | nil => simp [find_account_and_path_accounts]
  | cons hd tl ih =>
    obtain ⟨aid, acc⟩ := hd
    simp only [find_account_and_path_accounts]
    by_cases hm : (collectMatches acc.files p).isEmpty
    · rw [if_pos hm]
      simp only [List.map_cons]
      exact ih.cons _
    · rw [if_neg hm]
      simp only [List.map_cons]
      exact ih.cons₂ _

theorem lookup_find_account_and_path (accounts : List (String × Account))
    (p : String) (hnd : keysNodup accounts) (k : String) (acc : Account)
    (hk : alistLookup accounts k = some acc) :
    alistLookup (find_account_and_path_accounts accounts p) k =
      if (collectMatches acc.files p).isEmpty then none
      else some (collectMatches acc.files p) := by
  induction accounts with
  | nil => cases hk
  | cons hd tl ih =>
    obtain ⟨aid, a0⟩ := hd
    have hndh := List.nodup_cons.mp
      (show (aid :: tl.map Prod.fst).Nodup from hnd)
    by_cases hka : aid = k
    · subst hka
      have ha0 : a0 = acc := by
        simpa [alistLookup] using hk
      subst ha0
      simp only [find_account_and_path_accounts]
      by_cases hm : (collectMatches a0.files p).isEmpty
      · rw [if_pos hm, if_pos hm]
        exact (lookup_eq_none_iff _ _).mpr
          (fun hc => hndh.1 ((find_account_and_path_accounts_keys tl p).subset hc))
      · rw [if_neg hm, if_neg hm]
        simp [alistLookup]
    · have hk' : alistLookup tl k = some acc := by
        simpa [alistLookup, hka] using hk
      simp only [find_account_and_path_accounts]
      by_cases hm : (collectMatches a0.files p).isEmpty
      · rw [if_pos hm]
        exact ih hndh.2 hk'
      · rw [if_neg hm]
        rw [show alistLookup ((aid, collectMatches a0.files p) ::
            find_account_and_path_accounts tl p) k =
            alistLookup (find_account_and_path_accounts tl p) k by
          simp [alistLookup, hka]]
        exact ih hndh.2 hk'

theorem mem_find_account_and_path {accounts : List (String × Account)}
    {p : String} {aid : String} {E : List (String × Int)}
    (h : (aid, E) ∈ find_account_and_path_accounts accounts p) :
    ∃ acc, (aid, acc) ∈ accounts ∧ E = collectMatches acc.files p := by
  induction accounts with
  | nil => simp [find_account_and_path_accounts] at h
  | cons hd tl ih =>
    obtain ⟨a0, acc0⟩ := hd
    simp only [find_account_and_path_accounts] at h
    by_cases hm : (collectMatches acc0.files p).isEmpty
    · rw [if_pos hm] at h
      obtain ⟨acc, hmem, hE⟩ := ih h
      exact ⟨acc, List.mem_cons_of_mem _ hmem, hE⟩
    · rw [if_neg hm] at h
      rcases List.mem_cons.mp h with h | h
      · have h1 : aid = a0 ∧ E = collectMatches acc0.files p := by
          simpa using h
        exact ⟨acc0, by simp [h1.1], h1.2⟩
      · obtain ⟨acc, hmem, hE⟩ := ih h
        exact ⟨acc, List.mem_cons_of_mem _ hmem, hE⟩

/-- The per-account effect of one removal run: accounts selected by the
removal map lose the matched sizes and entries, others are untouched. -/
def applyRemoval (rmap : RemovalMap) (pr : String × Account) : String × Account :=
  match alistLookup rmap pr.1 with
  | none => pr
  | some E => (pr.1, ⟨pr.2.used_space - sumSizes E,
      pr.2.remaining_space + sumSizes E, eraseKeys pr.2.files (E.map Prod.fst)⟩)

theorem remove_from_database_map_spec (rmap : RemovalMap) (db : DB)
    (hnd : keysNodup db.accounts)
    (hrk : (rmap.map Prod.fst).Nodup)
    (hcond : ∀ e ∈ rmap, ∃ acc, alistLookup db.accounts e.1 = some acc ∧
      (e.2.map Prod.fst).Nodup ∧
      ∀ q ∈ e.2, alistLookup acc.files q.1 = some q.2) :
    remove_from_database db rmap = some ⟨db.accounts.map (applyRemoval rmap)⟩ := by
  induction rmap generalizing db with
  | nil =>
    show some db = _
    have hid : db.accounts.map (applyRemoval []) = db.accounts := by
      conv_rhs => rw [← List.map_id db.accounts]
      apply List.map_congr_left
      intro pr hpr
      rfl
    rw [hid]
  | cons e rest ih =>
    obtain ⟨aid, E⟩ := e
    obtain ⟨acc, ha, hEnd, hEmem⟩ := hcond (aid, E) (List.mem_cons_self _ _)
    have h1 := removeFiles_spec E db aid acc ha hEnd hEmem
    simp only [remove_from_database, h1]
    have hkeys : (alistInsert db.accounts aid
        ⟨acc.used_space - sumSizes E, acc.remaining_space + sumSizes E,
          eraseKeys acc.files (E.map Prod.fst)⟩).map Prod.fst =
        db.accounts.map Prod.fst :=
      keys_alistInsert_of_isSome _ (by simp [ha])
    have hndh := List.nodup_cons.mp
      (show (aid :: rest.map Prod.fst).Nodup from hrk)
    have hnd2 : keysNodup (alistInsert db.accounts aid
        ⟨acc.used_space - sumSizes E, acc.remaining_space + sumSizes E,
          eraseKeys acc.files (E.map Prod.fst)⟩) := by
      unfold keysNodup
      rw [hkeys]
      exact hnd
    have hcond2 : ∀ e ∈ rest, ∃ acc2,
        alistLookup (alistInsert db.accounts aid
          ⟨acc.used_space - sumSizes E, acc.remaining_space + sumSizes E,
            eraseKeys acc.files (E.map Prod.fst)⟩) e.1 = some acc2 ∧
        (e.2.map Prod.fst).Nodup ∧
        ∀ q ∈ e.2, alistLookup acc2.files q.1 = some q.2 := by
      intro e he
      obtain ⟨acc2, ha2, hnd3, hmem3⟩ := hcond e (List.mem_cons_of_mem _ he)
      refine ⟨acc2, ?_, hnd3, hmem3⟩
      have hne : e.1 ≠ aid := by
        intro heq
        exact hndh.1 (heq ▸ List.mem_map_of_mem Prod.fst he)
      rw [lookup_alistInsert_ne _ _ _ _ hne]
      exact ha2
    rw [ih ⟨alistInsert db.accounts aid
        ⟨acc.used_space - sumSizes E, acc.remaining_space + sumSizes E,
          eraseKeys acc.files (E.map Prod.fst)⟩⟩ hnd2 hndh.2 hcond2]
    congr 1
    congr 1
    show (alistInsert db.accounts aid _).map (applyRemoval rest) = _
    rw [alistInsert_eq_map_of_nodup hnd (by simp [ha]), List.map_map]
    apply List.map_congr_left
    intro pr hpr
    by_cases hpra : pr.1 = aid
    · have hlk := lookup_eq_some_of_mem hnd
        (show (pr.1, pr.2) ∈ db.accounts from hpr)
      rw [hpra, ha] at hlk
      have hpr2 : pr.2 = acc := by
        injection hlk with hlk
        exact hlk.symm
      have hrnone : alistLookup rest aid = none :=
        (lookup_eq_none_iff rest aid).mpr hndh.1
      simp [Function.comp, applyRemoval, hpra, alistLookup, hrnone, hpr2]
    · have hne : ¬ aid = pr.1 := fun he => hpra he.symm
      simp [Function.comp, applyRemoval, hpra, alistLookup, hne]

theorem eraseKeys_cons_out {α : Type} (k : String) (v : α)
    (F : List (String × α)) (ks : List String) (hk : k ∉ ks) :
    eraseKeys ((k, v) :: F) ks = (k, v) :: eraseKeys F ks := by
  induction ks generalizing F with
  | nil => rfl
  | cons k1 krest ih =>
    have hne : k ≠ k1 := fun he => hk (he ▸ List.mem_cons_self _ _)
    show eraseKeys (alistErase ((k, v) :: F) k1) krest = _
    rw [show alistErase ((k, v) :: F) k1 = (k, v) :: alistErase F k1 by
      simp [alistErase, hne]]
    exact ih (alistErase F k1) (fun hc => hk (List.mem_cons_of_mem _ hc))

theorem eraseKeys_filter (q : String → Bool) (F : List (String × Int))
    (hnd : (F.map Prod.fst).Nodup) :
    eraseKeys F ((F.filter (fun e => q e.1)).map Prod.fst) =
      F.filter (fun e => !(q e.1)) := by
  induction F with
  | nil => rfl
  | cons e rest ih =>
    obtain ⟨k, v⟩ := e
    have hndh := List.nodup_cons.mp
      (show (k :: rest.map Prod.fst).Nodup from hnd)
    by_cases hq : q k
    · rw [show ((k, v) :: rest).filter (fun e => q e.1) =
          (k, v) :: rest.filter (fun e => q e.1) by simp [List.filter_cons, hq]]
      rw [show ((k, v) :: rest).filter (fun e => !(q e.1)) =
          rest.filter (fun e => !(q e.1)) by simp [List.filter_cons, hq]]
      show eraseKeys (alistErase ((k, v) :: rest) k)
          ((rest.filter (fun e => q e.1)).map Prod.fst) = _
      rw [show alistErase ((k, v) :: rest) k = rest by simp [alistErase]]
      exact ih hndh.2
    · rw [show ((k, v) :: rest).filter (fun e => q e.1) =
          rest.filter (fun e => q e.1) by simp [List.filter_cons, hq]]
      rw [show ((k, v) :: rest).filter (fun e => !(q e.1)) =
          (k, v) :: rest.filter (fun e => !(q e.1)) by simp [List.filter_cons, hq]]
      have hknot : k ∉ (rest.filter (fun e => q e.1)).map Prod.fst := by
        intro hc
        rcases List.mem_map.mp hc with ⟨e2, he2, hk2⟩
        exact hndh.1
          (hk2 ▸ List.mem_map_of_mem Prod.fst (List.mem_of_mem_filter he2))
      rw [eraseKeys_cons_out k v rest _ hknot, ih hndh.2]

theorem sumSizes_filter_add (q : String → Bool) (F : List (String × Int)) :
    sumSizes (F.filter (fun e => q e.1)) +
      sumSizes (F.filter (fun e => !(q e.1))) = sumSizes F := by
  induction F with
  | nil => simp [sumSizes]
  | cons e rest ih =>
    by_cases hq : q e.1
    · simp [List.filter_cons, hq, sumSizes] at ih ⊢
      omega
    · simp [List.filter_cons, hq, sumSizes] at ih ⊢
      omega

/-- The spec-level description of one removal run: per account, the entries
whose destination path starts with the prefix are deleted, their total size
moves from `used_space` back to `remaining_space`, and every non-matching
entry is untouched. -/
def removalModel (db : DB) (p : String) : DB :=
  ⟨db.accounts.map (fun pr =>
    (pr.1, ⟨pr.2.used_space - sumSizes (collectMatches pr.2.files p),
      pr.2.remaining_space + sumSizes (collectMatches pr.2.files p),
      pr.2.files.filter (fun e => !(startswith e.1 p))⟩))⟩

theorem removal_characterization (db : DB) (p : String) (h : wfDB db) :
    remove_from_database db (find_account_and_path db p) =
      some (removalModel db p) := by
  obtain ⟨hnd, hfnd⟩ := h
  have hrk : ((find_account_and_path db p).map Prod.fst).Nodup :=
    (find_account_and_path_accounts_keys db.accounts p).nodup hnd
  have hcond : ∀ e ∈ find_account_and_path db p, ∃ acc,
      alistLookup db.accounts e.1 = some acc ∧ (e.2.map Prod.fst).Nodup ∧
      ∀ q ∈ e.2, alistLookup acc.files q.1 = some q.2 := by
    intro e he
    obtain ⟨acc, hmem, hE⟩ := mem_find_account_and_path
      (show (e.1, e.2) ∈ find_account_and_path_accounts db.accounts p from he)
    refine ⟨acc, lookup_eq_some_of_mem hnd hmem, ?_, ?_⟩
    · rw [hE]
      have hs : ((collectMatches acc.files p).map Prod.fst).Sublist
          (acc.files.map Prod.fst) := (List.filter_sublist _).map _
      exact hs.nodup (hfnd (e.1, acc) hmem)
    · intro q hq
      rw [hE] at hq
      exact lookup_eq_some_of_mem (hfnd (e.1, acc) hmem)
        (show (q.1, q.2) ∈ acc.files from List.mem_of_mem_filter hq)
  rw [remove_from_database_map_spec (find_account_and_path db p) db hnd hrk
    hcond]
  congr 1
  unfold removalModel
  congr 1
  apply List.map_congr_left
  intro pr hpr
  obtain ⟨k0, acc0⟩ := pr
  have hlk : alistLookup db.accounts k0 = some acc0 :=
    lookup_eq_some_of_mem hnd hpr
  have hfp := lookup_find_account_and_path db.accounts p hnd k0 acc0 hlk
  show applyRemoval (find_account_and_path db p) (k0, acc0) = _
  have hfp2 : alistLookup (find_account_and_path db p) k0 =
      if (collectMatches acc0.files p).isEmpty then none
      else some (collectMatches acc0.files p) := hfp
  unfold applyRemoval
  dsimp only
  by_cases hm : (collectMatches acc0.files p).isEmpty
  · rw [hfp2, if_pos hm]
    have hcoll : collectMatches acc0.files p = [] := by
      simpa using hm
    have hfilter : acc0.files.filter (fun e => !(startswith e.1 p)) =
        acc0.files := by
      apply List.filter_eq_self.mpr
      intro a ha
      have hna : ¬ (startswith a.1 p = true) := by
        intro hsw
        have hmem : a ∈ collectMatches acc0.files p :=
          List.mem_filter.mpr ⟨ha, hsw⟩
        rw [hcoll] at hmem
        cases hmem
      simp [hna]
    rw [hcoll]
    obtain ⟨u, r, F⟩ := acc0
    simp [sumSizes, hfilter]
  · rw [hfp2, if_neg hm]
    have hfe := eraseKeys_filter (fun k => startswith k p) acc0.files
      (hfnd (k0, acc0) hpr)
    simp only [] at hfe
    simp [collectMatches, sumSizes, hfe]

theorem lookup_map_pair {α β : Type} (g : α → β) (l : List (String × α))
    (k : String) :
    alistLookup (l.map (fun pr => (pr.1, g pr.2))) k =
      (alistLookup l k).map g := by
  induction l with
  | nil => rfl
  | cons hd tl ih =>
    obtain ⟨k₀, v₀⟩ := hd
    by_cases hk : k₀ = k
    · subst hk
      simp [alistLookup]
    · simp [alistLookup, hk, ih]

theorem lookup_removalModel (db : DB) (p : String) (k : String) :
    alistLookup (removalModel db p).accounts k =
      (alistLookup db.accounts k).map (fun acc =>
        (⟨acc.used_space - sumSizes (collectMatches acc.files p),
          acc.remaining_space + sumSizes (collectMatches acc.files p),
          acc.files.filter (fun e => !(startswith e.1 p))⟩ : Account)) := by
  show alistLookup (db.accounts.map (fun pr => (pr.1,
      (⟨pr.2.used_space - sumSizes (collectMatches pr.2.files p),
        pr.2.remaining_space + sumSizes (collectMatches pr.2.files p),
        pr.2.files.filter (fun e => !(startswith e.1 p))⟩ : Account)))) k = _
  exact lookup_map_pair (fun acc =>
    (⟨acc.used_space - sumSizes (collectMatches acc.files p),
      acc.remaining_space + sumSizes (collectMatches acc.files p),
      acc.files.filter (fun e => !(startswith e.1 p))⟩ : Account)) db.accounts k

/-- Scenario E of the spec: files `a/b/x` and `a/c/y` on different accounts. -/
def scenarioE_db : DB :=
  ⟨[("acc1", ⟨1, 99, [("a/b/x", 1)]⟩), ("acc2", ⟨2, 98, [("a/c/y", 2)]⟩)]⟩

/-- C7: a removal run on a well-formed ledger deletes exactly the entries
whose destination path starts with the prefix (plain string-prefix match),
returns each matched size to the remaining space of its account, and leaves
non-matching entries untouched (`removalModel`); per account the lookup
view shows the same; an account with no matching entry is fully unchanged;
the matching is not path-segment aware — `a/b` matches `a/bc`; and on
Scenario E removing prefix `a/b` removes only `a/b/x`. -/
theorem C7_prefix_removal (db : DB) (p : String) (h : wfDB db) :
    (remove_from_database db (find_account_and_path db p) =
      some (removalModel db p))
    ∧ (∀ k acc, alistLookup db.accounts k = some acc →
        alistLookup (removalModel db p).accounts k =
          some ⟨acc.used_space - sumSizes (collectMatches acc.files p),
            acc.remaining_space + sumSizes (collectMatches acc.files p),
            acc.files.filter (fun e => !(startswith e.1 p))⟩)
    ∧ (∀ k acc, alistLookup db.accounts k = some acc →
        collectMatches acc.files p = [] →
        alistLookup (removalModel db p).accounts k = some acc)
    ∧ startswith "a/bc" "a/b" = true
    ∧ process_removal scenarioE_db "a/b" =
        some (⟨[("acc1", ⟨0, 100, []⟩), ("acc2", ⟨2, 98, [("a/c/y", 2)]⟩)]⟩,
          [generate_rclone_command "acc1" (include_file_path "acc1") "a/b" "."
            true],
          false) := by
  refine ⟨removal_characterization db p h, ?_, ?_, by decide, by decide⟩
  · intro k acc hk
    rw [lookup_removalModel, hk]
    rfl
  · intro k acc hk hcoll
    rw [lookup_removalModel, hk]
    have hfilter : acc.files.filter (fun e => !(startswith e.1 p)) =
        acc.files := by
      apply List.filter_eq_self.mpr
      intro a ha
      have hna : ¬ (startswith a.1 p = true) := by
        intro hsw
        have hmem : a ∈ collectMatches acc.files p :=
          List.mem_filter.mpr ⟨ha, hsw⟩
        rw [hcoll] at hmem
        cases hmem
      simp [hna]
    obtain ⟨u, r, F⟩ := acc
    simp [hcoll, sumSizes, hfilter]

/-- Witness for C7 at a concrete input: the Scenario E ledger with prefix
`a/b` reduces by the characterization theorem. -/
theorem C7_prefix_removal_witness :
    remove_from_database scenarioE_db (find_account_and_path scenarioE_db "a/b")
      = some (removalModel scenarioE_db "a/b") :=
  (C7_prefix_removal scenarioE_db "a/b" (by decide)).1

/-! ### used_space equals the sum of recorded sizes -/

/-- The `used_space` of every account equals the sum of the sizes of its
recorded files. -/
def usedInv (db : DB) : Prop :=
  ∀ pr ∈ db.accounts, pr.2.used_space = sumSizes pr.2.files

instance (db : DB) : Decidable (usedInv db) := by
  unfold usedInv
  infer_instance

theorem sumSizes_alistInsert_of_none {F : List (String × Int)} {p : String}
    (h : alistLookup F p = none) (s : Int) :
    sumSizes (alistInsert F p s) = sumSizes F + s := by
  induction F with
  | nil => simp [alistInsert, sumSizes]
  | cons e rest ih =>
    obtain ⟨k, v⟩ := e
    by_cases hk : k = p
    · simp [alistLookup, hk] at h
    · simp [alistLookup, hk] at h
      have hih := ih h
      simp [alistInsert, hk, sumSizes] at hih ⊢
      omega

/-- C6: after a placement of a destination path not yet present in any
account (the dedup guard of the planner) and after a removal run on a
well-formed ledger, the `used_space` of each account still equals the sum of the
sizes of its recorded files. -/
theorem C6_used_space_is_sum :
    (∀ (db : DB) (aid p : String) (s : Int), usedInv db →
      file_already_processed db p = false →
      usedInv (update_account_usage db aid s p))
    ∧ (∀ (db db2 : DB) (p : String), wfDB db → usedInv db →
        remove_from_database db (find_account_and_path db p) = some db2 →
        usedInv db2) := by
  constructor
  · intro db aid p s hinv hproc
    unfold update_account_usage
    rcases ha : alistLookup db.accounts aid with _ | acc
    · exact hinv
    · intro pr hpr
      rcases mem_alistInsert hpr with hpr | hpr
      · subst hpr
        have hmemacc : (aid, acc) ∈ db.accounts := mem_of_lookup_eq_some ha
        have hnone : alistLookup acc.files p = none := by
          have := List.any_eq_false.mp hproc (aid, acc) hmemacc
          simpa using this
        have hused : acc.used_space = sumSizes acc.files :=
          hinv (aid, acc) hmemacc
        show acc.used_space + s = sumSizes (alistInsert acc.files p s)
        rw [sumSizes_alistInsert_of_none hnone, hused]
      · exact hinv pr hpr
  · intro db db2 p hwf hinv hrem
    rw [removal_characterization db p hwf] at hrem
    injection hrem with hrem
    subst hrem
    intro pr hpr
    unfold removalModel at hpr
    rcases List.mem_map.mp hpr with ⟨pr0, hpr0, hval⟩
    subst hval
    have hused : pr0.2.used_space = sumSizes pr0.2.files :=
      hinv pr0 hpr0
    show pr0.2.used_space - sumSizes (collectMatches pr0.2.files p) =
      sumSizes (pr0.2.files.filter (fun e => !(startswith e.1 p)))
    have hsplit := sumSizes_filter_add (fun k => startswith k p) pr0.2.files
    simp only [] at hsplit
    have hcoll : collectMatches pr0.2.files p =
        pr0.2.files.filter (fun e => startswith e.1 p) := rfl
    rw [hcoll, hused]
    omega

/-- Witness for C6 at a concrete input: placing a fresh path on account A
keeps used_space equal to the sum of recorded sizes. -/
theorem C6_used_space_is_sum_witness :
    usedInv (update_account_usage ⟨[("A", ⟨3, 7, [("v", 3)]⟩)]⟩ "A" 4 "w") :=
  C6_used_space_is_sum.1 ⟨[("A", ⟨3, 7, [("v", 3)]⟩)]⟩ "A" "w" 4 (by decide)
    (by decide)

/-! ### Removal with the empty prefix -/

theorem startswith_empty (s : String) : startswith s "" = true := by
  unfold startswith
  rw [show ("" : String).data = [] from rfl]
  exact List.isPrefixOf_nil_left

theorem collectMatches_empty_pre (F : List (String × Int)) :
    collectMatches F "" = F :=
  List.filter_eq_self.mpr (fun a _ => startswith_empty a.1)

theorem filter_not_startswith_empty (F : List (String × Int)) :
    F.filter (fun e => !(startswith e.1 "")) = [] := by
  apply List.filter_eq_nil_iff.mpr
  intro a _
  simp [startswith_empty]

theorem find_account_and_path_empty (accounts : List (String × Account)) :
    find_account_and_path_accounts accounts "" =
      (accounts.filter (fun pr => !(pr.2.files.isEmpty))).map
        (fun pr => (pr.1, pr.2.files)) := by
  induction accounts with
  | nil => rfl
  | cons hd tl ih =>
    obtain ⟨aid, acc⟩ := hd
    simp only [find_account_and_path_accounts, collectMatches_empty_pre]
    by_cases hm : acc.files.isEmpty
    · rw [if_pos hm]
      simp [List.filter_cons, hm, ih]
    · rw [if_neg hm]
      simp [List.filter_cons, hm, ih]

/-- C10: removing with the empty string as the prefix matches every file
(every path starts with the empty string): the whole run succeeds, the
files dict of every account ends empty with every matched size returned to
`remaining_space`, the selection is exactly the accounts that held at least
one file, and one delete directive is emitted per such account. -/
theorem C10_empty_prefix_removes_all (db : DB) (h : wfDB db)
    (hne : ∃ pr ∈ db.accounts, pr.2.files ≠ []) :
    process_removal db "" = some (removalModel db "",
      (find_account_and_path db "").map (fun pr =>
        generate_rclone_command pr.1 (include_file_path pr.1) "" "." true),
      false)
    ∧ find_account_and_path db "" =
        (db.accounts.filter (fun pr => !(pr.2.files.isEmpty))).map
          (fun pr => (pr.1, pr.2.files))
    ∧ (∀ pr ∈ (removalModel db "").accounts, pr.2.files = [])
    ∧ (∀ k acc, alistLookup db.accounts k = some acc →
        alistLookup (removalModel db "").accounts k =
          some ⟨acc.used_space - sumSizes acc.files,
            acc.remaining_space + sumSizes acc.files, []⟩) := by
  have hfe : find_account_and_path db "" =
      (db.accounts.filter (fun pr => !(pr.2.files.isEmpty))).map
        (fun pr => (pr.1, pr.2.files)) :=
    find_account_and_path_empty db.accounts
  refine ⟨?_, hfe, ?_, ?_⟩
  · have hchar := removal_characterization db "" h
    have hne2 : ¬ ((find_account_and_path db "").isEmpty = true) := by
      obtain ⟨pr, hmem, hpr⟩ := hne
      intro hempty
      have hnil : find_account_and_path db "" = [] := by
        simpa using hempty
      have hmemf : (pr.1, pr.2.files) ∈
          (db.accounts.filter (fun pr => !(pr.2.files.isEmpty))).map
            (fun pr => (pr.1, pr.2.files)) :=
        List.mem_map_of_mem _
          (List.mem_filter.mpr ⟨hmem, by simpa using hpr⟩)
      rw [← hfe, hnil] at hmemf
      cases hmemf
    simp only [process_removal, hchar]
    rw [if_neg hne2]
  · intro pr hpr
    unfold removalModel at hpr
    rcases List.mem_map.mp hpr with ⟨pr0, hpr0, hval⟩
    subst hval
    exact filter_not_startswith_empty pr0.2.files
  · intro k acc hk
    rw [lookup_removalModel, hk]
    simp [collectMatches_empty_pre, filter_not_startswith_empty]

/-- Witness for C10 at a concrete input: a two-account ledger where only A
holds files; the empty prefix clears everything and emits one delete
command for A. -/
theorem C10_empty_prefix_removes_all_witness :
    process_removal ⟨[("A", ⟨3, 7, [("x", 1), ("y", 2)]⟩),
        ("B", ⟨0, 10, []⟩)]⟩ "" =
      some (removalModel ⟨[("A", ⟨3, 7, [("x", 1), ("y", 2)]⟩),
          ("B", ⟨0, 10, []⟩)]⟩ "",
        (find_account_and_path ⟨[("A", ⟨3, 7, [("x", 1), ("y", 2)]⟩),
            ("B", ⟨0, 10, []⟩)]⟩ "").map (fun pr =>
          generate_rclone_command pr.1 (include_file_path pr.1) "" "." true),
        false) :=
  (C10_empty_prefix_removes_all
    ⟨[("A", ⟨3, 7, [("x", 1), ("y", 2)]⟩), ("B", ⟨0, 10, []⟩)]⟩
    (by decide) (by decide)).1

/-! ### Directive batching of the transfer planner -/

/-- C4 counterexample: one run accepting, for the same account, two files
with different destination roots (`d1` and `d2`) batches both into the
single per-account grouping and emits exactly one copy command, whose
destination is `destination_paths[0] = d1` — not one Directive per unique
(account, destination root) pair. -/
theorem C4_counterexample :
    (process_transfer_files ⟨[("A", ⟨0, 100, []⟩)]⟩
        [⟨"r1", 10, "d1", "d1/r1"⟩, ⟨"r2", 10, "d2", "d2/r2"⟩] []).2 =
      [("A", (["r1", "r2"], ["d1", "d2"]))]
    ∧ (process_transfer ⟨[("A", ⟨0, 100, []⟩)]⟩
        [⟨"r1", 10, "d1", "d1/r1"⟩, ⟨"r2", 10, "d2", "d2/r2"⟩] "src").2 =
      [generate_rclone_command "A" (include_file_path "A") "d1" "src" false] := by
  constructor
  · rfl
  · rfl

/-- Well-formed per-run grouping: one entry per account and no entry with
empty path lists. -/
def afWF (af : AccountFiles) : Prop :=
  (af.map Prod.fst).Nodup ∧ ∀ pr ∈ af, pr.2.1 ≠ [] ∧ pr.2.2 ≠ []

theorem accountFilesAdd_keys (af : AccountFiles) (aid rel dest : String) :
    (accountFilesAdd af aid rel dest).map Prod.fst = af.map Prod.fst ∨
    (accountFilesAdd af aid rel dest).map Prod.fst =
      af.map Prod.fst ++ [aid] := by
  induction af with
  | nil =>
    right
    rfl
  | cons e rest ih =>
    obtain ⟨k, v⟩ := e
    by_cases hk : k = aid
    · left
      simp [accountFilesAdd, hk]
    · rcases ih with h | h
      · left
        simp [accountFilesAdd, hk, h]
      · right
        simp [accountFilesAdd, hk, h]

theorem accountFilesAdd_wf (af : AccountFiles) (aid rel dest : String)
    (h : afWF af) : afWF (accountFilesAdd af aid rel dest) := by
  induction af with
  | nil =>
    constructor
    · simp [accountFilesAdd]
    · intro pr hpr
      rcases List.mem_cons.mp hpr with hpr | hpr
      · subst hpr
        simp
      · cases hpr
  | cons e rest ih =>
    obtain ⟨k, v⟩ := e
    obtain ⟨hnd, hmem⟩ := h
    have hndh := List.nodup_cons.mp
      (show (k :: rest.map Prod.fst).Nodup from hnd)
    by_cases hk : k = aid
    · simp only [accountFilesAdd, if_pos hk]
      constructor
      · exact hnd
      · intro pr hpr
        rcases List.mem_cons.mp hpr with hpr | hpr
        · subst hpr
          simp
        · exact hmem pr (List.mem_cons_of_mem _ hpr)
    · simp only [accountFilesAdd, if_neg hk]
      have hwrest : afWF (accountFilesAdd rest aid rel dest) :=
        ih ⟨hndh.2, fun pr hpr => hmem pr (List.mem_cons_of_mem _ hpr)⟩
      constructor
      · show (k :: (accountFilesAdd rest aid rel dest).map Prod.fst).Nodup
        apply List.nodup_cons.mpr
        refine ⟨?_, hwrest.1⟩
        rcases accountFilesAdd_keys rest aid rel dest with hkeys | hkeys
        · rw [hkeys]
          exact hndh.1
        · rw [hkeys]
          intro hc
          rcases List.mem_append.mp hc with hc | hc
          · exact hndh.1 hc
          · simp at hc
            exact hk hc
      · intro pr hpr
        rcases List.mem_cons.mp hpr with hpr | hpr
        · subst hpr
          exact hmem (k, v) (List.mem_cons_self _ _)
        · exact hwrest.2 pr hpr

theorem process_transfer_files_wf (files : List FileInfo) (db : DB)
    (af : AccountFiles) (h : afWF af) :
    afWF (process_transfer_files db files af).2 := by
  induction files generalizing db af with
  | nil => exact h
  | cons fi rest ih =>
    unfold process_transfer_files
    by_cases h1 : file_already_processed db fi.destination_path_with_name
    · simp only [h1, if_true]
      exact ih db af h
    · simp only [h1, if_false]
      rcases h2 : find_suitable_account db fi.size with _ | aid
      · exact ih db af h
      · by_cases h3 : aid = ""
        · subst h3
          exact ih db af h
        · simp only [h3, if_false]
          exact ih _ _ (accountFilesAdd_wf af aid _ _ h)

/-- C4 as amended: the planner does not split by destination root.  It
emits exactly one copy directive per account that received at least one
file this run (the grouping has one entry per account, each with nonempty
path lists), and the destination of that single directive is the head of the
accumulated destination roots of the account, i.e. the destination root of the
first file accepted for that account. -/
theorem C4_one_directive_per_account (db : DB) (files : List FileInfo)
    (src : String) :
    (process_transfer db files src).2 =
      ((process_transfer_files db files []).2).map (fun pr =>
        generate_rclone_command pr.1 (include_file_path pr.1)
          (pr.2.2.headD "")
          (if startswith src "id=" then "god,root_folder_" ++ src ++ ":"
            else src) false)
    ∧ (((process_transfer_files db files []).2).map Prod.fst).Nodup
    ∧ (∀ pr ∈ (process_transfer_files db files []).2,
        pr.2.1 ≠ [] ∧ pr.2.2 ≠ []) := by
  have hwf := process_transfer_files_wf files db [] ⟨List.nodup_nil, by simp⟩
  exact ⟨rfl, hwf.1, hwf.2⟩

/-! ### Dedup idempotence of the transfer planner -/

/-- One account evolves along a transfer run: its remaining space never
grows and its recorded destination paths are never removed. -/
def accEvolves (a b : Account) : Prop :=
  b.remaining_space ≤ a.remaining_space ∧
  ∀ p, (alistLookup a.files p).isSome → (alistLookup b.files p).isSome

/-- Entry-wise evolution: same account id, evolving account. -/
def evR (x y : String × Account) : Prop :=
  x.1 = y.1 ∧ accEvolves x.2 y.2

/-- A ledger evolves along a transfer run: same accounts in the same
order, each evolving. -/
def dbEvolves (d1 d2 : DB) : Prop :=
  List.Forall₂ evR d1.accounts d2.accounts

theorem evR_refl (x : String × Account) : evR x x :=
  ⟨rfl, le_refl _, fun _ h => h⟩

theorem evR_trans {x y z : String × Account} (h1 : evR x y) (h2 : evR y z) :
    evR x z :=
  ⟨h1.1.trans h2.1, le_trans h2.2.1 h1.2.1,
    fun p hp => h2.2.2 p (h1.2.2 p hp)⟩

theorem dbEvolves_refl (d : DB) : dbEvolves d d :=
  List.forall₂_same.mpr (fun x _ => evR_refl x)

theorem forall₂_evR_trans {l1 l2 l3 : List (String × Account)}
    (h12 : List.Forall₂ evR l1 l2) (h23 : List.Forall₂ evR l2 l3) :
    List.Forall₂ evR l1 l3 := by
  induction h12 generalizing l3 with
  | nil =>
    cases h23
    exact List.Forall₂.nil
  | cons hR hrest ih =>
    cases h23 with
    | cons hR2 hrest2 =>
      exact List.Forall₂.cons (evR_trans hR hR2) (ih hrest2)

theorem dbEvolves_trans {d1 d2 d3 : DB} (h12 : dbEvolves d1 d2)
    (h23 : dbEvolves d2 d3) : dbEvolves d1 d3 :=
  forall₂_evR_trans h12 h23

theorem forall₂_mem_left {l1 l2 : List (String × Account)}
    (h : List.Forall₂ evR l1 l2) {x : String × Account} (hx : x ∈ l1) :
    ∃ y ∈ l2, evR x y := by
  induction h with
  | nil => cases hx
  | cons hR hrest ih =>
    rcases List.mem_cons.mp hx with rfl | hx
    · exact ⟨_, List.mem_cons_self _ _, hR⟩
    · obtain ⟨y, hy, hRy⟩ := ih hx
      exact ⟨y, List.mem_cons_of_mem _ hy, hRy⟩

theorem forall₂_mem_right {l1 l2 : List (String × Account)}
    (h : List.Forall₂ evR l1 l2) {y : String × Account} (hy : y ∈ l2) :
    ∃ x ∈ l1, evR x y := by
  induction h with
  | nil => cases hy
  | cons hR hrest ih =>
    rcases List.mem_cons.mp hy with rfl | hy
    · exact ⟨_, List.mem_cons_self _ _, hR⟩
    · obtain ⟨x, hx, hRx⟩ := ih hy
      exact ⟨x, List.mem_cons_of_mem _ hx, hRx⟩

theorem lookup_isSome_alistInsert {α : Type} (F : List (String × α))
    (k p : String) (v : α) (h : (alistLookup F p).isSome) :
    (alistLookup (alistInsert F k v) p).isSome := by
  by_cases hp : p = k
  · subst hp
    rw [lookup_alistInsert_self]
    rfl
  · rw [lookup_alistInsert_ne _ _ _ _ hp]
    exact h

theorem forall₂_insert_evolves (l : List (String × Account)) (aid : String)
    (acc : Account) (h : alistLookup l aid = some acc) (acc' : Account)
    (hev : evR (aid, acc) (aid, acc')) :
    List.Forall₂ evR l (alistInsert l aid acc') := by
  induction l with
  | nil => cases h
  | cons hd tl ih =>
    obtain ⟨k, v⟩ := hd
    by_cases hk : k = aid
    · subst hk
      have hv : v = acc := by
        simpa [alistLookup] using h
      subst hv
      rw [show alistInsert ((k, v) :: tl) k acc' = (k, acc') :: tl by
        simp [alistInsert]]
      exact List.Forall₂.cons hev (List.forall₂_same.mpr
        (fun x _ => evR_refl x))
    · have h' : alistLookup tl aid = some acc := by
        simpa [alistLookup, hk] using h
      rw [show alistInsert ((k, v) :: tl) aid acc' =
          (k, v) :: alistInsert tl aid acc' by simp [alistInsert, hk]]
      exact List.Forall₂.cons (evR_refl (k, v)) (ih h')

theorem dbEvolves_update (db : DB) (aid : String) (s : Int) (p : String)
    (hs : 0 ≤ s) : dbEvolves db (update_account_usage db aid s p) := by
  unfold update_account_usage
  rcases h : alistLookup db.accounts aid with _ | acc
  · exact dbEvolves_refl db
  · show List.Forall₂ evR db.accounts _
    apply forall₂_insert_evolves db.accounts aid acc h
    refine ⟨rfl, ?_, ?_⟩
    · show acc.remaining_space - s ≤ acc.remaining_space
      omega
    · intro q hq
      exact lookup_isSome_alistInsert acc.files p q s hq

theorem dbEvolves_process_transfer_files (files : List FileInfo) (db : DB)
    (af : AccountFiles) (hs : ∀ fi ∈ files, 0 ≤ fi.size) :
    dbEvolves db (process_transfer_files db files af).1 := by
  induction files generalizing db af with
  | nil => exact dbEvolves_refl db
  | cons f0 rest ih =>
    have hs0 : 0 ≤ f0.size := hs f0 (List.mem_cons_self _ _)
    have hsrest : ∀ g ∈ rest, 0 ≤ g.size :=
      fun g hg => hs g (List.mem_cons_of_mem _ hg)
    unfold process_transfer_files
    by_cases h1 : file_already_processed db f0.destination_path_with_name
    · simp only [h1, if_true]
      exact ih db af hsrest
    · simp only [h1, if_false]
      rcases h2 : find_suitable_account db f0.size with _ | aid
      · exact ih db af hsrest
      · by_cases h3 : aid = ""
        · subst h3
          exact ih db af hsrest
        · simp only [h3, if_false]
          exact dbEvolves_trans (dbEvolves_update db aid f0.size _ hs0)
            (ih _ _ hsrest)

theorem processed_mono {d1 d2 : DB} (hev : dbEvolves d1 d2) {p : String}
    (h : file_already_processed d1 p = true) :
    file_already_processed d2 p = true := by
  unfold file_already_processed at h ⊢
  rcases List.any_eq_true.mp h with ⟨pr, hpr, hsome⟩
  obtain ⟨y, hy, hRy⟩ := forall₂_mem_left hev hpr
  exact List.any_eq_true.mpr ⟨y, hy, hRy.2.2 p hsome⟩

theorem find_none_mono {d1 d2 : DB} (hev : dbEvolves d1 d2) {s : Int}
    (h : find_suitable_account d1 s = none) :
    find_suitable_account d2 s = none := by
  rw [find_suitable_account_eq_none_iff] at h ⊢
  intro pr hpr
  obtain ⟨x, hx, hRx⟩ := forall₂_mem_right hev hpr
  exact lt_of_le_of_lt hRx.2.1 (h x hx)

theorem lookup_isSome_of_mem_key {α : Type} {l : List (String × α)}
    {k : String} {v : α} (h : (k, v) ∈ l) : (alistLookup l k).isSome := by
  induction l with
  | nil => cases h
  | cons hd tl ih =>
    obtain ⟨k₀, v₀⟩ := hd
    by_cases hk : k₀ = k
    · simp [alistLookup, hk]
    · rcases List.mem_cons.mp h with he | he
      · have hkk : k = k₀ := by
          have := congrArg Prod.fst he
          simpa using this
        exact absurd hkk.symm hk
      · simp [alistLookup, hk]
        exact ih he

theorem self_mem_alistInsert {α : Type} (l : List (String × α)) (k : String)
    (v : α) : (k, v) ∈ alistInsert l k v := by
  induction l with
  | nil => simp [alistInsert]
  | cons hd tl ih =>
    obtain ⟨k₀, v₀⟩ := hd
    by_cases hk : k₀ = k
    · simp [alistInsert, hk]
    · simp only [alistInsert, if_neg hk]
      exact List.mem_cons_of_mem _ ih

theorem update_account_usage_keys (db : DB) (aid : String) (s : Int)
    (p : String) :
    (update_account_usage db aid s p).accounts.map Prod.fst =
      db.accounts.map Prod.fst := by
  unfold update_account_usage
  rcases h : alistLookup db.accounts aid with _ | acc
  · rfl
  · exact keys_alistInsert_of_isSome _ (by simp [h])

theorem processed_after_update {db : DB} {s : Int} {aid : String}
    (haid : find_suitable_account db s = some aid) (p : String) :
    file_already_processed (update_account_usage db aid s p) p = true := by
  obtain ⟨acc0, hmem, -, -⟩ := find_suitable_account_eq_some db s aid haid
  unfold update_account_usage
  rcases h : alistLookup db.accounts aid with _ | acc
  · have hsome := lookup_isSome_of_mem_key hmem
    rw [h] at hsome
    cases hsome
  · unfold file_already_processed
    apply List.any_eq_true.mpr
    refine ⟨(aid, ⟨acc.used_space + s, acc.remaining_space - s,
      alistInsert acc.files p s⟩), self_mem_alistInsert _ _ _, ?_⟩
    show (alistLookup (alistInsert acc.files p s) p).isSome = true
    rw [lookup_alistInsert_self]
    rfl

theorem run1_classification (files : List FileInfo) (db : DB)
    (af : AccountFiles) (hid : "" ∉ db.accounts.map Prod.fst)
    (hs : ∀ fi ∈ files, 0 ≤ fi.size) :
    ∀ fi ∈ files,
      file_already_processed (process_transfer_files db files af).1
        fi.destination_path_with_name = true ∨
      find_suitable_account (process_transfer_files db files af).1 fi.size =
        none := by
  induction files generalizing db af with
  | nil =>
    intro fi h
    cases h
  | cons f0 rest ih =>
    intro fi hfi
    have hs0 : 0 ≤ f0.size := hs f0 (List.mem_cons_self _ _)
    have hsrest : ∀ g ∈ rest, 0 ≤ g.size :=
      fun g hg => hs g (List.mem_cons_of_mem _ hg)
    unfold process_transfer_files
    by_cases h1 : file_already_processed db f0.destination_path_with_name
    · simp only [h1, if_true]
      rcases List.mem_cons.mp hfi with rfl | hfi
      · left
        exact processed_mono (dbEvolves_process_transfer_files rest db af
          hsrest) h1
      · exact ih db af hid hsrest fi hfi
    · simp only [h1, if_false]
      rcases h2 : find_suitable_account db f0.size with _ | aid
      · rcases List.mem_cons.mp hfi with rfl | hfi
        · right
          exact find_none_mono (dbEvolves_process_transfer_files rest db af
            hsrest) h2
        · exact ih db af hid hsrest fi hfi
      · have haidne : ¬ aid = "" := by
          obtain ⟨acc, hmem, -, -⟩ := find_suitable_account_eq_some db f0.size
            aid h2
          intro he
          subst he
          exact hid (List.mem_map_of_mem Prod.fst hmem)
        simp only [haidne, if_false]
        have hid2 : "" ∉ (update_account_usage db aid f0.size
            f0.destination_path_with_name).accounts.map Prod.fst := by
          rw [update_account_usage_keys]
          exact hid
        rcases List.mem_cons.mp hfi with rfl | hfi
        · left
          exact processed_mono
            (dbEvolves_process_transfer_files rest _ _ hsrest)
            (processed_after_update h2 _)
        · exact ih _ _ hid2 hsrest fi hfi

theorem run2_noop (files : List FileInfo) (db : DB) (af : AccountFiles)
    (h : ∀ fi ∈ files,
      file_already_processed db fi.destination_path_with_name = true ∨
      find_suitable_account db fi.size = none) :
    process_transfer_files db files af = (db, af) := by
  induction files with
  | nil => rfl
  | cons f0 rest ih =>
    have hrest : ∀ fi ∈ rest,
        file_already_processed db fi.destination_path_with_name = true ∨
        find_suitable_account db fi.size = none :=
      fun fi hfi => h fi (List.mem_cons_of_mem _ hfi)
    rcases h f0 (List.mem_cons_self _ _) with h0 | h0
    · unfold process_transfer_files
      simp only [h0, if_true]
      exact ih hrest
    · unfold process_transfer_files
      by_cases h1 : file_already_processed db f0.destination_path_with_name
      · simp only [h1, if_true]
        exact ih hrest
      · simp only [h1, if_false, h0]
        exact ih hrest

/-- C3 counterexample: the dedup-idempotence claim fails as stated, on two
kinds of inputs the quantifiers admit.  First, a descriptor with negative
size: the first run records it, which increases remaining space, so the
second run can place a file that was unplaceable in the first run.  Second,
an account whose id is the empty string: `if account_id:` is false for `""`,
so the first run skips the file without mutating, but after later
placements the allocator prefers another account and the second run places
it.  In both cases the second run mutates the ledger. -/
theorem C3_counterexample :
    (process_transfer_files ⟨[("A", ⟨0, 5, []⟩)]⟩
        [⟨"rx", 10, "d", "x"⟩, ⟨"ry", -7, "d", "y"⟩] []).1 =
      ⟨[("A", ⟨-7, 12, [("y", -7)]⟩)]⟩
    ∧ (process_transfer_files ⟨[("A", ⟨-7, 12, [("y", -7)]⟩)]⟩
        [⟨"rx", 10, "d", "x"⟩, ⟨"ry", -7, "d", "y"⟩] []).1 =
      ⟨[("A", ⟨3, 2, [("y", -7), ("x", 10)]⟩)]⟩
    ∧ (⟨[("A", ⟨3, 2, [("y", -7), ("x", 10)]⟩)]⟩ : DB) ≠
      ⟨[("A", ⟨-7, 12, [("y", -7)]⟩)]⟩
    ∧ (process_transfer_files ⟨[("", ⟨50, 20, []⟩), ("B", ⟨40, 100, []⟩)]⟩
        [⟨"ry", 10, "d", "y"⟩, ⟨"rx", 60, "d", "x"⟩] []).1 =
      ⟨[("", ⟨50, 20, []⟩), ("B", ⟨100, 40, [("x", 60)]⟩)]⟩
    ∧ (process_transfer_files
        ⟨[("", ⟨50, 20, []⟩), ("B", ⟨100, 40, [("x", 60)]⟩)]⟩
        [⟨"ry", 10, "d", "y"⟩, ⟨"rx", 60, "d", "x"⟩] []).1 =
      ⟨[("", ⟨50, 20, []⟩), ("B", ⟨110, 30, [("x", 60), ("y", 10)]⟩)]⟩
    ∧ (⟨[("", ⟨50, 20, []⟩), ("B", ⟨110, 30, [("x", 60), ("y", 10)]⟩)]⟩ : DB) ≠
      ⟨[("", ⟨50, 20, []⟩), ("B", ⟨100, 40, [("x", 60)]⟩)]⟩ :=
  ⟨rfl, rfl, by decide, rfl, rfl, by decide⟩

/-- C3 as amended: for a ledger none of whose account ids is the empty
string and descriptors with non-negative sizes, running
`process_transfer` a second time with the identical descriptor list against
the ledger produced by the first run places zero new files, emits no
directives, and leaves the ledger unchanged. -/
theorem C3_dedup_idempotence (db : DB) (files : List FileInfo) (src : String)
    (hid : "" ∉ db.accounts.map Prod.fst)
    (hs : ∀ fi ∈ files, 0 ≤ fi.size) :
    process_transfer (process_transfer db files src).1 files src =
      ((process_transfer db files src).1, []) := by
  have hclass := run1_classification files db [] hid hs
  have hrun2 := run2_noop files (process_transfer_files db files []).1 []
    hclass
  show ((process_transfer_files (process_transfer_files db files []).1
      files []).1,
    transfer_commands (process_transfer_files
      (process_transfer_files db files []).1 files []).2 src) = _
  rw [hrun2]
  rfl

/-- Witness for the amended C3 at a concrete input: one account, one file,
second run is a no-op. -/
theorem C3_dedup_idempotence_witness :
    process_transfer
        (process_transfer ⟨[("A", ⟨0, 100, []⟩)]⟩ [⟨"r", 10, "d", "x"⟩]
          "s").1
        [⟨"r", 10, "d", "x"⟩] "s" =
      ((process_transfer ⟨[("A", ⟨0, 100, []⟩)]⟩ [⟨"r", 10, "d", "x"⟩]
        "s").1, []) :=
  C3_dedup_idempotence ⟨[("A", ⟨0, 100, []⟩)]⟩ [⟨"r", 10, "d", "x"⟩] "s"
    (by decide) (by decide)
